import Mathlib

/-!
# Verification of the Keep-In-Touch contact-to-text entity matching core

This development gives a shallow embedding, in Lean 4, of the matching core of
the Keep-In-Touch repository:

* `supabase/functions/get-premiere-matches/index.ts` — normalization, the
  static `NAME_VARIATIONS` alias table, `getNameVariations`,
  `isPartialNameMatch`, `tokenSortRatio` / `calculateRatio` (token-sort
  Levenshtein ratio), the staged matcher `fuzzyMatch`, the first-name-variant
  index `createFirstNameMap`, `extractFirstNameVariations`, and the enhanced
  matching loop over credits;
* `supabase/functions/get-news-matches/index.ts` — the last-name index
  `createLastNameMap`, the per-article scanner `checkArticleForMatches`
  (candidate pruning, per-contact dedup, best-location choice, excerpt
  construction) and the upsert persistence keyed on (article url, contact id).

Strings are modelled as `List Char`.  JavaScript `toLowerCase` is modelled on
the ASCII range (the alias table and all matching logic in the source are
ASCII); `trim` and `split` are modelled on the JavaScript whitespace
characters space, tab, carriage return and newline.  JavaScript number
arithmetic on the ratio (`Math.round(((maxLen - distance) / maxLen) * 100)`)
is modelled exactly over the rationals, i.e. as round-half-up of
`100 * (maxLen - distance) / maxLen` on natural numbers.

Definitions named after source functions are direct translations of the
TypeScript; definitions whose doc comment says "Modelled from the spec" follow
the specification's words instead and are used as reference points for
refinement theorems.
-/

namespace KeepInTouch

/-- Strings of the embedded program, as lists of characters. -/
abbrev Name := List Char

/-- JavaScript whitespace (the characters actually produced by the
normalization paths in the source: space, tab, carriage return, newline). -/
def isWs (c : Char) : Bool :=
  c == ' ' || c == '\t' || c == '\r' || c == '\n'

/-- ASCII lowercasing of one character, the effect of JavaScript
`toLowerCase` on the ASCII range. -/
def toLowerC : Char → Char
  | 'A' => 'a' | 'B' => 'b' | 'C' => 'c' | 'D' => 'd' | 'E' => 'e'
  | 'F' => 'f' | 'G' => 'g' | 'H' => 'h' | 'I' => 'i' | 'J' => 'j'
  | 'K' => 'k' | 'L' => 'l' | 'M' => 'm' | 'N' => 'n' | 'O' => 'o'
  | 'P' => 'p' | 'Q' => 'q' | 'R' => 'r' | 'S' => 's' | 'T' => 't'
  | 'U' => 'u' | 'V' => 'v' | 'W' => 'w' | 'X' => 'x' | 'Y' => 'y'
  | 'Z' => 'z'
  | c => c

/-- Lowercase a whole string (JavaScript `str.toLowerCase()`). -/
def lowerName (s : Name) : Name := s.map toLowerC

/-- Remove trailing whitespace (the trailing half of JavaScript `trim`). -/
def trimEnd : Name → Name
  | [] => []
  | c :: cs =>
    match trimEnd cs with
    | [] => if isWs c then [] else [c]
    | r => c :: r

/-- JavaScript `str.trim()`: drop leading and trailing whitespace. -/
def trimWs (s : Name) : Name := trimEnd (s.dropWhile isWs)

/-- Source `normalizeString`: `str.toLowerCase().trim()`. -/
def normalizeString (s : Name) : Name := trimWs (lowerName s)

/-- Split into the maximal runs of characters satisfying `keep`, discarding
separators.  With `keep = not ∘ isWs` this is JavaScript
`str.split(/\s+/).filter(t => t.length > 0)`; with `keep = isWordChar` it is
`str.split(/\W+/)` up to the empty fragments that the source filters away. -/
def tokensByAux (keep : Char → Bool) : List Char → List Char → List (List Char)
  | [], acc => if acc = [] then [] else [acc.reverse]
  | c :: cs, acc =>
    if keep c then tokensByAux keep cs (c :: acc)
    else (if acc = [] then [] else [acc.reverse]) ++ tokensByAux keep cs []

/-- The whitespace tokenizer used on normalized names. -/
def tokensWs (s : Name) : List Name := tokensByAux (fun c => !isWs c) s []

/-- JavaScript word characters, `\w` = `[A-Za-z0-9_]`. -/
def isWordChar (c : Char) : Bool :=
  ('a' ≤ c && c ≤ 'z') || ('A' ≤ c && c ≤ 'Z') || ('0' ≤ c && c ≤ '9') || c == '_'

/-- Tokenization of article text on non-word characters
(`combinedLower.split(/\W+/)`, nonempty fragments). -/
def tokensWord (s : Name) : List Name := tokensByAux isWordChar s []

/-- Lexicographic comparison of two strings by code point, the default
JavaScript `Array.prototype.sort` comparison on strings. -/
def lexLe : Name → Name → Bool
  | [], _ => true
  | _ :: _, [] => false
  | a :: as, b :: bs => if a = b then lexLe as bs else decide (a.val < b.val)

/-- Insert into a `lexLe`-sorted list, keeping it sorted. -/
def insertSorted (x : Name) : List Name → List Name
  | [] => [x]
  | y :: ys => if lexLe x y then x :: y :: ys else y :: insertSorted x ys

/-- JavaScript `tokens.sort()`: the tokens in lexicographic order.  `lexLe`
is total and antisymmetric, so any sorting algorithm yields this insertion
sort's result; insertion sort keeps the definition kernel-computable. -/
def sortTokens (ts : List Name) : List Name := ts.foldr insertSorted []

/-- JavaScript `tokens.join(' ')`. -/
def joinSp : List Name → Name
  | [] => []
  | [t] => t
  | t :: ts => t ++ ' ' :: joinSp ts

/-! ## Levenshtein distance

`levRowGo`/`levDP` are the direct translation of the dynamic-programming
matrix loop inside the source's `calculateRatio`: the matrix is filled row by
row (one row per character of the second string, one column per character of
the first), each cell being the minimum of deletion, insertion and
substitution, and the distance is the bottom-right cell.

`levAux`/`levenshtein` is the classic Levenshtein edit distance written as
the textbook recurrence on the *final* characters of the two strings (the
recurrence underlying the Wagner–Fischer table): `levAux` recurses on the
heads of the reversed strings, which are the last characters of the
originals. -/

/-- Inner loop of the source DP: fill the rest of one matrix row.
`s1` is the remaining part of the first string, `prev` the remaining part of
the previous row, `diag` the cell up-left of the one being computed and
`left` the cell to its left. -/
def levRowGo (c2 : Char) : List Char → List Nat → Nat → Nat → List Nat
  | [], _, _, _ => []
  | _ :: _, [], _, _ => []
  | a :: s1, p :: ps, diag, left =>
    let cur := min (min (p + 1) (left + 1)) (diag + (if a = c2 then 0 else 1))
    cur :: levRowGo c2 s1 ps p cur

/-- One row step of the source DP (row `i` from row `i-1`, for the `i`-th
character `c2` of the second string). -/
def levRowFull (s1 : List Char) (prev : List Nat) (c2 : Char) : List Nat :=
  match prev with
  | [] => []
  | p0 :: ps => (p0 + 1) :: levRowGo c2 s1 ps p0 (p0 + 1)

/-- The matrix loop of the source `calculateRatio`: the edit distance as the
last cell of the last row. -/
def levDP (s1 s2 : List Char) : Nat :=
  ((s2.foldl (levRowFull s1) (List.range (s1.length + 1))).getLastD 0)

/-- The classic Levenshtein recurrence, processing the two strings from the
front (used on the reversed strings by `levenshtein`). -/
def levAux : List Char → List Char → Nat
  | [], ys => ys.length
  | x :: xs, [] => (x :: xs).length
  | x :: xs, y :: ys =>
    min (min (levAux xs (y :: ys) + 1) (levAux (x :: xs) ys + 1))
      (levAux xs ys + (if x = y then 0 else 1))
termination_by xs ys => xs.length + ys.length

/-- Modelled from the spec: classic Levenshtein edit distance with
insertion, deletion and substitution each of cost 1, written as the textbook
recurrence on the final characters of the two strings (recursing on the
reversed lists makes that recursion structural). -/
def levenshtein (xs ys : List Char) : Nat := levAux xs.reverse ys.reverse

/-- Round-half-up of `100 * num / den`, the exact value of the source's
`Math.round((num / den) * 100)` for natural `num ≤ den`. -/
def roundRatio (num den : Nat) : Nat := (200 * num + den) / (2 * den)

/-- Source `calculateRatio`: 100 for identical strings, 0 when exactly one is
empty, otherwise the rounded similarity `100 * (maxLen - distance) / maxLen`
with `distance` computed by the DP matrix (`levDP`).  The distance never
exceeds `maxLen`, so the natural subtraction is exact. -/
def calculateRatio (str1 str2 : Name) : Nat :=
  if str1 = str2 then 100
  else if str1.length = 0 then (if str2.length = 0 then 100 else 0)
  else if str2.length = 0 then 0
  else
    let distance := levDP str1 str2
    let maxLen := max str1.length str2.length
    roundRatio (maxLen - distance) maxLen

/-- Source `tokenSortRatio`: normalize, split on whitespace (dropping empty
tokens), sort, rejoin with single spaces, and compare with
`calculateRatio`. -/
def tokenSortRatio (str1 str2 : Name) : Nat :=
  let sorted1 := joinSp (sortTokens (tokensWs (normalizeString str1)))
  let sorted2 := joinSp (sortTokens (tokensWs (normalizeString str2)))
  calculateRatio sorted1 sorted2

/-- Modelled from the spec: the token-sort-ratio reference definition of
§4.2 — normalize both strings, split on whitespace, sort the token lists
lexicographically, rejoin with single spaces, and return
`100 * (maxLen - levenshtein) / maxLen` as an integer (round half up),
with the documented edge cases as guards on the compared strings:
identical → 100, exactly one empty → 0. -/
def similarityRatioSpec (a b : Name) : Nat :=
  let sorted1 := joinSp (sortTokens (tokensWs (normalizeString a)))
  let sorted2 := joinSp (sortTokens (tokensWs (normalizeString b)))
  if sorted1 = sorted2 then 100
  else if sorted1 = [] then 0
  else if sorted2 = [] then 0
  else
    let maxLen := max sorted1.length sorted2.length
    roundRatio (maxLen - levenshtein sorted1 sorted2) maxLen

/-- Shorthand turning a Lean string literal into an embedded string. -/
def nm (s : String) : Name := s.data

/-- The static `NAME_VARIATIONS` map of the source, as its literal list of
(key, variants) entries in source order.  The JavaScript `Map` constructor
keeps the *last* binding for a duplicated key (`jsMapGet` implements that);
every duplicated key in the source carries an identical value. -/
def NAME_VARIATIONS : List (Name × List Name) := [
  (nm "dan", [nm "daniel"]),
  (nm "danny", [nm "daniel"]),
  (nm "rob", [nm "robert"]),
  (nm "bob", [nm "robert"]),
  (nm "bobby", [nm "robert"]),
  (nm "chris", [nm "christopher"]),
  (nm "mike", [nm "michael"]),
  (nm "micky", [nm "michael"]),
  (nm "mickey", [nm "michael"]),
  (nm "bill", [nm "william"]),
  (nm "billy", [nm "william"]),
  (nm "will", [nm "william"]),
  (nm "jim", [nm "james"]),
  (nm "jimmy", [nm "james"]),
  (nm "joe", [nm "joseph"]),
  (nm "joey", [nm "joseph"]),
  (nm "tom", [nm "thomas"]),
  (nm "tommy", [nm "thomas"]),
  (nm "dave", [nm "david"]),
  (nm "davey", [nm "david"]),
  (nm "steve", [nm "steven", nm "stephen"]),
  (nm "stevie", [nm "steven", nm "stephen"]),
  (nm "rick", [nm "richard"]),
  (nm "ricky", [nm "richard"]),
  (nm "dick", [nm "richard"]),
  (nm "tony", [nm "anthony"]),
  (nm "matt", [nm "matthew"]),
  (nm "nick", [nm "nicholas"]),
  (nm "nicky", [nm "nicholas"]),
  (nm "alex", [nm "alexander", nm "alexandra"]),
  (nm "sam", [nm "samuel", nm "samantha"]),
  (nm "ben", [nm "benjamin"]),
  (nm "benny", [nm "benjamin"]),
  (nm "andy", [nm "andrew"]),
  (nm "drew", [nm "andrew"]),
  (nm "kate", [nm "katherine", nm "kathryn"]),
  (nm "katie", [nm "katherine", nm "kathryn"]),
  (nm "kathy", [nm "katherine", nm "kathryn"]),
  (nm "liz", [nm "elizabeth"]),
  (nm "beth", [nm "elizabeth"]),
  (nm "betty", [nm "elizabeth"]),
  (nm "sue", [nm "susan"]),
  (nm "susie", [nm "susan"]),
  (nm "jen", [nm "jennifer"]),
  (nm "jenny", [nm "jennifer"]),
  (nm "jess", [nm "jessica"]),
  (nm "jessie", [nm "jessica"]),
  (nm "amy", [nm "amelia"]),
  (nm "mel", [nm "melissa", nm "melanie"]),
  (nm "lisa", [nm "elizabeth"]),
  (nm "pat", [nm "patricia", nm "patrick"]),
  (nm "patty", [nm "patricia"]),
  (nm "trish", [nm "patricia"]),
  (nm "nancy", [nm "ann", nm "anne"]),
  (nm "peggy", [nm "margaret"]),
  (nm "maggie", [nm "margaret"]),
  (nm "meg", [nm "margaret"]),
  (nm "cindy", [nm "cynthia"]),
  (nm "mandy", [nm "amanda"]),
  (nm "sandy", [nm "sandra"]),
  (nm "becky", [nm "rebecca"]),
  (nm "debbie", [nm "deborah"]),
  (nm "deb", [nm "deborah"]),
  (nm "carol", [nm "caroline"]),
  (nm "carrie", [nm "caroline"]),
  (nm "terry", [nm "teresa", nm "terence"]),
  (nm "tim", [nm "timothy"]),
  (nm "greg", [nm "gregory"]),
  (nm "ken", [nm "kenneth"]),
  (nm "kenny", [nm "kenneth"]),
  (nm "ed", [nm "edward"]),
  (nm "eddie", [nm "edward"]),
  (nm "ted", [nm "edward", nm "theodore"]),
  (nm "frank", [nm "francis"]),
  (nm "ray", [nm "raymond"]),
  (nm "ron", [nm "ronald"]),
  (nm "ronnie", [nm "ronald"]),
  (nm "don", [nm "donald"]),
  (nm "donnie", [nm "donald"]),
  (nm "mark", [nm "marcus"]),
  (nm "max", [nm "maxwell", nm "maximilian"]),
  (nm "jake", [nm "jacob"]),
  (nm "jack", [nm "john", nm "jackson"]),
  (nm "johnny", [nm "john"]),
  (nm "jon", [nm "jonathan", nm "john"]),
  (nm "josh", [nm "joshua"]),
  (nm "brad", [nm "bradley"]),
  (nm "chad", [nm "charles"]),
  (nm "chuck", [nm "charles"]),
  (nm "charlie", [nm "charles"]),
  (nm "rich", [nm "richard"]),
  (nm "richie", [nm "richard"]),
  (nm "phil", [nm "philip"]),
  (nm "pete", [nm "peter"]),
  (nm "paul", [nm "paul"]),
  (nm "scott", [nm "scott"]),
  (nm "sean", [nm "john"]),
  (nm "shane", [nm "john"]),
  (nm "shawn", [nm "john"]),
  (nm "brian", [nm "bryan"]),
  (nm "bryan", [nm "brian"]),
  (nm "craig", [nm "craig"]),
  (nm "derek", [nm "derrick"]),
  (nm "derrick", [nm "derek"]),
  (nm "eric", [nm "erik"]),
  (nm "erik", [nm "eric"]),
  (nm "gary", [nm "garrett"]),
  (nm "jeff", [nm "jeffrey"]),
  (nm "jerry", [nm "gerald", nm "jerome"]),
  (nm "larry", [nm "lawrence"]),
  (nm "barry", [nm "barrett"]),
  (nm "harry", [nm "harold", nm "henry"]),
  (nm "henry", [nm "harry"]),
  (nm "harold", [nm "harry"]),
  (nm "carl", [nm "karl"]),
  (nm "karl", [nm "carl"]),
  (nm "neal", [nm "neil"]),
  (nm "neil", [nm "neal"]),
  (nm "alan", [nm "allen"]),
  (nm "allen", [nm "alan"]),
  (nm "aaron", [nm "aron"]),
  (nm "aron", [nm "aaron"]),
  (nm "adam", [nm "adam"]),
  (nm "adrian", [nm "adrian"]),
  (nm "albert", [nm "al"]),
  (nm "al", [nm "albert", nm "alan", nm "allen"]),
  (nm "arthur", [nm "art"]),
  (nm "art", [nm "arthur"]),
  (nm "austin", [nm "austin"]),
  (nm "blake", [nm "blake"]),
  (nm "bruce", [nm "bruce"]),
  (nm "calvin", [nm "cal"]),
  (nm "cal", [nm "calvin"]),
  (nm "cameron", [nm "cam"]),
  (nm "cam", [nm "cameron"]),
  (nm "curtis", [nm "curt"]),
  (nm "curt", [nm "curtis"]),
  (nm "douglas", [nm "doug"]),
  (nm "doug", [nm "douglas"]),
  (nm "eugene", [nm "gene"]),
  (nm "gene", [nm "eugene"]),
  (nm "francis", [nm "frank"]),
  (nm "frederick", [nm "fred"]),
  (nm "fred", [nm "frederick"]),
  (nm "gabriel", [nm "gabe"]),
  (nm "gabe", [nm "gabriel"]),
  (nm "george", [nm "george"]),
  (nm "gerald", [nm "jerry"]),
  (nm "gordon", [nm "gordon"]),
  (nm "howard", [nm "howie"]),
  (nm "howie", [nm "howard"]),
  (nm "ivan", [nm "ivan"]),
  (nm "jason", [nm "jay"]),
  (nm "jay", [nm "jason", nm "james"]),
  (nm "jerome", [nm "jerry"]),
  (nm "jordan", [nm "jordan"]),
  (nm "justin", [nm "justin"]),
  (nm "keith", [nm "keith"]),
  (nm "kevin", [nm "kevin"]),
  (nm "kyle", [nm "kyle"]),
  (nm "lance", [nm "lance"]),
  (nm "leon", [nm "leon"]),
  (nm "louis", [nm "lou"]),
  (nm "lou", [nm "louis"]),
  (nm "lucas", [nm "luke"]),
  (nm "luke", [nm "lucas"]),
  (nm "marcus", [nm "mark"]),
  (nm "martin", [nm "marty"]),
  (nm "marty", [nm "martin"]),
  (nm "mason", [nm "mason"]),
  (nm "nathan", [nm "nate"]),
  (nm "nate", [nm "nathan"]),
  (nm "norman", [nm "norm"]),
  (nm "norm", [nm "norman"]),
  (nm "oliver", [nm "ollie"]),
  (nm "ollie", [nm "oliver"]),
  (nm "oscar", [nm "oscar"]),
  (nm "owen", [nm "owen"]),
  (nm "patrick", [nm "pat"]),
  (nm "quinton", [nm "quinn"]),
  (nm "quinn", [nm "quinton"]),
  (nm "ralph", [nm "ralph"]),
  (nm "randall", [nm "randy"]),
  (nm "randy", [nm "randall"]),
  (nm "roger", [nm "roger"]),
  (nm "russell", [nm "russ"]),
  (nm "russ", [nm "russell"]),
  (nm "stanley", [nm "stan"]),
  (nm "stan", [nm "stanley"]),
  (nm "stuart", [nm "stu"]),
  (nm "stu", [nm "stuart"]),
  (nm "trevor", [nm "trev"]),
  (nm "trev", [nm "trevor"]),
  (nm "victor", [nm "vic"]),
  (nm "vic", [nm "victor"]),
  (nm "walter", [nm "walt"]),
  (nm "walt", [nm "walter"]),
  (nm "warren", [nm "warren"]),
  (nm "wayne", [nm "wayne"]),
  (nm "wesley", [nm "wes"]),
  (nm "wes", [nm "wesley"]),
  (nm "zachary", [nm "zach"]),
  (nm "zach", [nm "zachary"]),
  (nm "daniel", [nm "dan", nm "danny"]),
  (nm "robert", [nm "rob", nm "bob", nm "bobby"]),
  (nm "christopher", [nm "chris"]),
  (nm "michael", [nm "mike", nm "micky", nm "mickey"]),
  (nm "william", [nm "bill", nm "billy", nm "will"]),
  (nm "james", [nm "jim", nm "jimmy"]),
  (nm "joseph", [nm "joe", nm "joey"]),
  (nm "thomas", [nm "tom", nm "tommy"]),
  (nm "david", [nm "dave", nm "davey"]),
  (nm "steven", [nm "steve", nm "stevie"]),
  (nm "stephen", [nm "steve", nm "stevie"]),
  (nm "richard", [nm "rick", nm "ricky", nm "dick", nm "rich", nm "richie"]),
  (nm "anthony", [nm "tony"]),
  (nm "matthew", [nm "matt"]),
  (nm "nicholas", [nm "nick", nm "nicky"]),
  (nm "alexander", [nm "alex"]),
  (nm "alexandra", [nm "alex"]),
  (nm "samuel", [nm "sam"]),
  (nm "samantha", [nm "sam"]),
  (nm "benjamin", [nm "ben", nm "benny"]),
  (nm "andrew", [nm "andy", nm "drew"]),
  (nm "katherine", [nm "kate", nm "katie", nm "kathy"]),
  (nm "kathryn", [nm "kate", nm "katie", nm "kathy"]),
  (nm "elizabeth", [nm "liz", nm "beth", nm "betty", nm "lisa"]),
  (nm "susan", [nm "sue", nm "susie"]),
  (nm "jennifer", [nm "jen", nm "jenny"]),
  (nm "jessica", [nm "jess", nm "jessie"]),
  (nm "amelia", [nm "amy"]),
  (nm "melissa", [nm "mel"]),
  (nm "melanie", [nm "mel"]),
  (nm "patricia", [nm "pat", nm "patty", nm "trish"]),
  (nm "patrick", [nm "pat"]),
  (nm "ann", [nm "nancy"]),
  (nm "anne", [nm "nancy"]),
  (nm "margaret", [nm "peggy", nm "maggie", nm "meg"]),
  (nm "cynthia", [nm "cindy"]),
  (nm "amanda", [nm "mandy"]),
  (nm "sandra", [nm "sandy"]),
  (nm "rebecca", [nm "becky"]),
  (nm "deborah", [nm "debbie", nm "deb"]),
  (nm "caroline", [nm "carol", nm "carrie"]),
  (nm "teresa", [nm "terry"]),
  (nm "terence", [nm "terry"]),
  (nm "timothy", [nm "tim"]),
  (nm "gregory", [nm "greg"]),
  (nm "kenneth", [nm "ken", nm "kenny"]),
  (nm "edward", [nm "ed", nm "eddie", nm "ted"]),
  (nm "theodore", [nm "ted"]),
  (nm "francis", [nm "frank"]),
  (nm "raymond", [nm "ray"]),
  (nm "ronald", [nm "ron", nm "ronnie"]),
  (nm "donald", [nm "don", nm "donnie"]),
  (nm "maxwell", [nm "max"]),
  (nm "maximilian", [nm "max"]),
  (nm "jacob", [nm "jake"]),
  (nm "john", [nm "jack", nm "johnny", nm "jon", nm "sean", nm "shane", nm "shawn"]),
  (nm "jackson", [nm "jack"]),
  (nm "jonathan", [nm "jon"]),
  (nm "joshua", [nm "josh"]),
  (nm "bradley", [nm "brad"]),
  (nm "charles", [nm "chad", nm "chuck", nm "charlie"]),
  (nm "philip", [nm "phil"]),
  (nm "peter", [nm "pete"]),
  (nm "jeffrey", [nm "jeff"]),
  (nm "gerald", [nm "jerry"]),
  (nm "jerome", [nm "jerry"]),
  (nm "lawrence", [nm "larry"]),
  (nm "barrett", [nm "barry"]),
  (nm "harold", [nm "harry"]),
  (nm "henry", [nm "harry"]),
  (nm "garrett", [nm "gary"]),
  (nm "albert", [nm "al"]),
  (nm "arthur", [nm "art"]),
  (nm "calvin", [nm "cal"]),
  (nm "cameron", [nm "cam"]),
  (nm "curtis", [nm "curt"]),
  (nm "douglas", [nm "doug"]),
  (nm "eugene", [nm "gene"]),
  (nm "frederick", [nm "fred"]),
  (nm "gabriel", [nm "gabe"]),
  (nm "howard", [nm "howie"]),
  (nm "jason", [nm "jay"]),
  (nm "louis", [nm "lou"]),
  (nm "lucas", [nm "luke"]),
  (nm "martin", [nm "marty"]),
  (nm "nathan", [nm "nate"]),
  (nm "norman", [nm "norm"]),
  (nm "oliver", [nm "ollie"]),
  (nm "quinton", [nm "quinn"]),
  (nm "randall", [nm "randy"]),
  (nm "russell", [nm "russ"]),
  (nm "stanley", [nm "stan"]),
  (nm "stuart", [nm "stu"]),
  (nm "trevor", [nm "trev"]),
  (nm "victor", [nm "vic"]),
  (nm "walter", [nm "walt"]),
  (nm "wesley", [nm "wes"]),
  (nm "zachary", [nm "zach"])]

/-- Lookup in a JavaScript `Map` built from a literal list of entries: the
*last* binding for a key wins (the `Map` constructor overwrites on duplicate
keys). -/
def jsMapGet (m : List (Name × List Name)) (k : Name) : Option (List Name) :=
  (m.reverse.find? (fun p => decide (p.1 = k))).map (·.2)

/-- Source `getNameVariations`: the normalized name followed by its table
variants (empty list on a table miss). -/
def getNameVariations (name : Name) : List Name :=
  let normalized := normalizeString name
  normalized :: ((jsMapGet NAME_VARIATIONS normalized).getD [])

/-- Source `isPartialNameMatch`: one normalized name is a prefix of the
other and both have at least 3 characters. -/
def isPartialNameMatch (name1 name2 : Name) : Bool :=
  let norm1 := normalizeString name1
  let norm2 := normalizeString name2
  if 3 ≤ norm1.length ∧ 3 ≤ norm2.length then
    norm1.isPrefixOf norm2 || norm2.isPrefixOf norm1
  else
    false

/-- The verdict of one staged comparison (source `fuzzyMatch` result
object). -/
structure MatchResult where
  isMatch : Bool
  score : Nat
  matchType : String
deriving DecidableEq, Repr

/-- Source `fuzzyMatch`: the staged matcher — exact, token-sort fuzzy
against the threshold, then (only when both names have two or more parts
and equal last parts) nickname-variant intersection and partial prefix, else
a "none" result carrying the fuzzy score. -/
def fuzzyMatch (contactFullName tmdbName : Name) (threshold : Nat) : MatchResult :=
  let contactNormalized := normalizeString contactFullName
  let tmdbNormalized := normalizeString tmdbName
  if contactNormalized = tmdbNormalized then
    ⟨true, 100, "exact"⟩
  else
    let tokenScore := tokenSortRatio contactNormalized tmdbNormalized
    if threshold ≤ tokenScore then
      ⟨true, tokenScore, "fuzzy"⟩
    else
      let contactParts := tokensWs contactNormalized
      let tmdbParts := tokensWs tmdbNormalized
      if 2 ≤ contactParts.length ∧ 2 ≤ tmdbParts.length then
        let contactFirstName := contactParts.headD []
        let contactLastName := contactParts.getLastD []
        let tmdbFirstName := tmdbParts.headD []
        let tmdbLastName := tmdbParts.getLastD []
        if contactLastName = tmdbLastName then
          let contactFirstVariations := getNameVariations contactFirstName
          let tmdbFirstVariations := getNameVariations tmdbFirstName
          if contactFirstVariations.any (fun cv => tmdbFirstVariations.any (fun tv => cv = tv)) then
            ⟨true, 95, "nickname"⟩
          else if isPartialNameMatch contactFirstName tmdbFirstName then
            ⟨true, 93, "partial"⟩
          else
            ⟨false, tokenScore, "none"⟩
        else
          ⟨false, tokenScore, "none"⟩
      else
        ⟨false, tokenScore, "none"⟩

/-- Modelled from the spec: the staged reference matcher of §4.4 / claim C1,
written from the specification's words.  Stage 2 applies the reference
`similarityRatioSpec` to the raw inputs; stages 3–4 require at least two
whitespace parts on each side and equal last parts, then test nickname
variant intersection and the two-directional ≥3-character prefix condition;
the final "none" result carries the stage-2 ratio. -/
def matchSpec (contactFullName observedName : Name) (threshold : Nat) : MatchResult :=
  let c := normalizeString contactFullName
  let o := normalizeString observedName
  if c = o then ⟨true, 100, "exact"⟩
  else
    let ratio := similarityRatioSpec contactFullName observedName
    if threshold ≤ ratio then ⟨true, ratio, "fuzzy"⟩
    else
      let cp := tokensWs c
      let op := tokensWs o
      if 2 ≤ cp.length ∧ 2 ≤ op.length ∧ cp.getLastD [] = op.getLastD [] then
        if (getNameVariations (cp.headD [])).any
            (fun cv => (getNameVariations (op.headD [])).any (fun tv => cv = tv)) then
          ⟨true, 95, "nickname"⟩
        else if isPartialNameMatch (cp.headD []) (op.headD []) then
          ⟨true, 93, "partial"⟩
        else ⟨false, ratio, "none"⟩
      else ⟨false, ratio, "none"⟩

/-! ## Contacts and name indexes -/

/-- A contact row as the matching core uses it.  JavaScript treats a missing
or empty name as falsy, so a missing `first_name`/`last_name` is modelled by
the empty string. -/
structure Contact where
  id : Nat
  first_name : Name
  last_name : Name
deriving DecidableEq, Repr

/-- The full name string `` `${contact.first_name} ${contact.last_name}` ``. -/
def fullNameOf (c : Contact) : Name := c.first_name ++ ' ' :: c.last_name

/-- A JavaScript `Map` from name fragments to contact lists, as an
association list with at most one binding per key. -/
abbrev NameMap := List (Name × List Contact)

/-- Map lookup (`map.get(k)`), first binding (the map operations below keep
keys unique). -/
def mapFind? (m : NameMap) (k : Name) : Option (List Contact) :=
  (m.find? (fun p => decide (p.1 = k))).map (·.2)

/-- Lookup with the empty list as default (`map.get(k) || []`). -/
def mapGetD (m : NameMap) (k : Name) : List Contact := (mapFind? m k).getD []

/-- Map update (`map.set(k, v)`): replace the binding for `k`, or append a
new one. -/
def mapSet (m : NameMap) (k : Name) (v : List Contact) : NameMap :=
  match m with
  | [] => [(k, v)]
  | (k', v') :: rest => if k' = k then (k, v) :: rest else (k', v') :: mapSet rest k v

/-- Inner step of the source `createFirstNameMap` loop: add `c` under the
first-name variation `v` unless a contact with the same id is already there. -/
def addVariation (c : Contact) (m : NameMap) (v : Name) : NameMap :=
  let existingContacts := mapGetD m v
  if existingContacts.any (fun c2 => c2.id = c.id) then m
  else mapSet m v (existingContacts ++ [c])

/-- Per-contact step of `createFirstNameMap`: skip contacts with a missing
first or last name, otherwise add the contact under every variation of its
first name. -/
def addContact (m : NameMap) (c : Contact) : NameMap :=
  if c.first_name = [] ∨ c.last_name = [] then m
  else (getNameVariations c.first_name).foldl (addVariation c) m

/-- Source `createFirstNameMap`: the first-name-variant index. -/
def createFirstNameMap (contacts : List Contact) : NameMap :=
  contacts.foldl addContact []

/-- Source `extractFirstNameVariations`: the variations of the first
whitespace token of the observed name (empty when there is no token). -/
def extractFirstNameVariations (fullName : Name) : List Name :=
  let parts := tokensWs (normalizeString fullName)
  let firstName := parts.headD []
  if firstName = [] then [] else getNameVariations firstName

/-- Accumulate contacts preserving insertion order without duplicates (the
`Set` of the matching loop). -/
def addUnique (acc : List Contact) (cs : List Contact) : List Contact :=
  cs.foldl (fun a c => if c ∈ a then a else a ++ [c]) acc

/-- The candidate set of the enhanced matching loop: the union, in insertion
order, of the index entries of every variation of the observed name's first
token. -/
def findCandidatesForName (m : NameMap) (observedName : Name) : List Contact :=
  (extractFirstNameVariations observedName).foldl
    (fun acc v => addUnique acc (mapGetD m v)) []

/-- The comparisons the enhanced matching loop performs for one credit name:
nothing when the name yields no first-name variations or no candidates, and
otherwise one `fuzzyMatch` call (threshold 90) per candidate that has both
names. -/
def creditComparisons (m : NameMap) (tmdbName : Name) : List (Contact × MatchResult) :=
  let variations := extractFirstNameVariations tmdbName
  if variations = [] then []
  else
    (findCandidatesForName m tmdbName).filterMap (fun c =>
      if c.first_name = [] ∨ c.last_name = [] then none
      else some (c, fuzzyMatch (fullNameOf c) tmdbName 90))

/-- Source `createLastNameMap` (news scanner): index contacts having both
names by their lowercased, trimmed last name. -/
def createLastNameMap (contacts : List Contact) : NameMap :=
  contacts.foldl (fun m c =>
    if c.first_name = [] ∨ c.last_name = [] then m
    else
      let last := trimWs (lowerName c.last_name)
      mapSet m last (mapGetD m last ++ [c])) []

/-! ## The news-article scanner

`checkArticleForMatches` takes the four already-cleaned source texts of one
article (title, excerpt, content, full) — HTML cleaning is an external
collaborator — and returns the list of match records the source persists,
in order.  The database upsert always succeeds in this model, so a saved
contact id goes into the session `alreadySaved` set exactly as in the
source. -/

/-- Where in the article a match was found. -/
inductive Loc
  | title | excerpt | content | full
deriving DecidableEq, Repr

/-- A persisted news match record (the fields the matching core computes). -/
structure NewsRec where
  contact : Contact
  matchLocation : Loc
  excerpt : Name
deriving DecidableEq, Repr

/-- The prioritized source list `[title, excerpt, content, full]` of
`checkArticleForMatches`. -/
def sourcesOf (title excerpt content full : Name) : List (Loc × Name) :=
  [(Loc.title, title), (Loc.excerpt, excerpt), (Loc.content, content), (Loc.full, full)]

/-- Boolean string containment, JavaScript `hay.includes(needle)`. -/
def isSub (needle hay : Name) : Bool :=
  needle.isPrefixOf hay ||
    match hay with
    | [] => false
    | _ :: t => isSub needle t

/-- Index of the first occurrence of `needle` in `hay`
(JavaScript `hay.indexOf(needle)`, `none` for -1). -/
def idxOfSub (hay needle : Name) : Option Nat :=
  if needle.isPrefixOf hay then some 0
  else
    match hay with
    | [] => none
    | _ :: t => (idxOfSub t needle).map (· + 1)

/-- The ellipsis character the source appends to truncated excerpts. -/
def ell : Name := ['…']

/-- Source `findExcerpt`: a window of `context` characters around the first
(lowercased) occurrence of the contact name, with ellipses at cut edges;
the first `context` characters when the name is absent. -/
def findExcerpt (sourceText : Name) (contactName : Name) (context : Nat) : Name :=
  match idxOfSub (lowerName sourceText) (lowerName contactName) with
  | none =>
    sourceText.take context ++ (if context < sourceText.length then ell else [])
  | some idx =>
    let start := idx - context / 2
    let stop := min sourceText.length (idx + (lowerName contactName).length + context / 2)
    (if 0 < start then ell else []) ++ (sourceText.drop start).take (stop - start) ++
      (if stop < sourceText.length then ell else [])

/-- The `combinedLower` text: the four lowercased sources joined with single
spaces. -/
def combinedLowerOf (srcs : List (Loc × Name)) : Name :=
  joinSp (srcs.map (fun s => lowerName s.2))

/-- First-occurrence deduplication (JavaScript `Set` iteration order). -/
def dedupFirst : List Name → List Name
  | [] => []
  | x :: xs => x :: (dedupFirst xs).filter (fun y => decide (y ≠ x))

/-- The unique words of the combined text: split on non-word characters,
keep words of length at least 2 (`new Set(combinedLower.split(/\W+/)
.filter(w => w.length >= 2))`). -/
def uniqueWordsOf (combined : Name) : List Name :=
  dedupFirst ((tokensWord combined).filter (fun w => 2 ≤ w.length))

/-- The candidate last names: unique words that are keys of the last-name
index. -/
def candidateLastNamesOf (m : NameMap) (combined : Name) : List Name :=
  (uniqueWordsOf combined).filter (fun w => (mapFind? m w).isSome)

/-- Source `chooseLocation`: the first source, in priority order, whose
lowercased text contains the lowercased full name; `full` when none does. -/
def chooseLocation (srcs : List (Loc × Name)) (fullNameLower : Name) : Loc :=
  match srcs.find? (fun s => isSub fullNameLower (lowerName s.2)) with
  | some s => s.1
  | none => Loc.full

/-- The text of the chosen source
(`sources.find(s => s.key === bestKey)?.text || full`: an empty text is
falsy in JavaScript and falls back to the full text). -/
def bestSourceText (srcs : List (Loc × Name)) (full : Name) (bestKey : Loc) : Name :=
  match srcs.find? (fun s => decide (s.1 = bestKey)) with
  | some s => if s.2 = [] then full else s.2
  | none => full

/-- Per-contact body of the scan loop: skip contacts already saved for this
article, require the combined text to contain the lowercased full name, and
otherwise record the best location and its excerpt and mark the contact
saved. -/
def processContact (combined : Name) (srcs : List (Loc × Name)) (full : Name)
    (st : List Nat × List NewsRec) (c : Contact) : List Nat × List NewsRec :=
  if c.id ∈ st.1 then st
  else
    let fullNameLower := lowerName (fullNameOf c)
    if isSub fullNameLower combined then
      let bestKey := chooseLocation srcs fullNameLower
      (c.id :: st.1,
        st.2 ++ [⟨c, bestKey, findExcerpt (bestSourceText srcs full bestKey) (fullNameOf c) 300⟩])
    else st

/-- Source `checkArticleForMatches` on the four cleaned texts of one
article: the match records saved, in order. -/
def checkArticleForMatches (m : NameMap) (title excerpt content full : Name) :
    List NewsRec :=
  let srcs := sourcesOf title excerpt content full
  let combined := combinedLowerOf srcs
  ((candidateLastNamesOf m combined).foldl
    (fun st w => (mapGetD m w).foldl (processContact combined srcs full) st)
    ([], [])).2

/-! ## Persistence: upsert keyed on (article url, contact id)

The source persists each record with
`upsert(..., { onConflict: 'article_url, contact_id' })`: at most one row
per (article url, contact id) pair, a second save replacing the first. -/

/-- The conflict key of the `news_matches` upsert. -/
abbrev ArticleKey := Name × Nat

/-- The persisted table, keyed by (article url, contact id). -/
abbrev Store := List (ArticleKey × NewsRec)

/-- Row lookup by conflict key. -/
def storeFind? (st : Store) (k : ArticleKey) : Option NewsRec :=
  (st.find? (fun p => decide (p.1 = k))).map (·.2)

/-- Upsert-on-conflict: replace the row with key `k`, or insert it. -/
def upsertMatch (st : Store) (k : ArticleKey) (r : NewsRec) : Store :=
  match st with
  | [] => [(k, r)]
  | (k', r') :: rest =>
    if k' = k then (k, r) :: rest else (k', r') :: upsertMatch rest k r

/-- Persist every record of one article scan, keyed on
(article url, contact id). -/
def saveAll (st : Store) (url : Name) (rs : List NewsRec) : Store :=
  rs.foldl (fun s r => upsertMatch s (url, r.contact.id) r) st

/-! ## Normalization lemmas -/

theorem toLowerC_cases (c : Char) :
    toLowerC c = c ∨ toLowerC c ∈
      ['a','b','c','d','e','f','g','h','i','j','k','l','m',
       'n','o','p','q','r','s','t','u','v','w','x','y','z'] := by
  unfold toLowerC
  split
  all_goals first
    | (right; decide)
    | (left; rfl)

theorem toLowerC_idem (c : Char) : toLowerC (toLowerC c) = toLowerC c := by
  rcases toLowerC_cases c with h | h
  · rw [h]; exact h
  · simp only [List.mem_cons, List.not_mem_nil, or_false] at h
    rcases h with h|h|h|h|h|h|h|h|h|h|h|h|h|h|h|h|h|h|h|h|h|h|h|h|h|h <;>
      (rw [h]; decide)

theorem isWs_toLowerC (c : Char) : isWs (toLowerC c) = isWs c := by
  unfold toLowerC
  split <;> rfl

theorem dropWhile_dropWhile {α} (p : α → Bool) (l : List α) :
    (l.dropWhile p).dropWhile p = l.dropWhile p := by
  induction l with
  | nil => rfl
  | cons a l ih => by_cases h : p a <;> simp [List.dropWhile, h, ih]

theorem trimEnd_cons_shape (c : Char) (cs : Name) :
    trimEnd (c :: cs) = [] ∨ ∃ r, trimEnd (c :: cs) = c :: r := by
  unfold trimEnd
  rcases h : trimEnd cs with _ | ⟨x, xs⟩
  · by_cases hc : isWs c
    · left; simp [hc]
    · right; exact ⟨[], by simp [hc]⟩
  · right; exact ⟨x :: xs, rfl⟩

theorem trimEnd_cons (c : Char) (cs : Name) :
    trimEnd (c :: cs) = match trimEnd cs with
      | [] => if isWs c then [] else [c]
      | r => c :: r := rfl

theorem trimEnd_idem (s : Name) : trimEnd (trimEnd s) = trimEnd s := by
  induction s with
  | nil => rfl
  | cons c cs ih =>
    rcases h : trimEnd cs with _ | ⟨x, xs⟩
    · have e1 : trimEnd (c :: cs) = if isWs c then [] else [c] := by
        rw [trimEnd_cons, h]
      by_cases hc : isWs c
      · rw [e1, if_pos hc]; rfl
      · rw [e1, if_neg hc, trimEnd_cons]
        show (match trimEnd ([] : Name) with
          | [] => if isWs c then [] else [c]
          | r => c :: r) = [c]
        simp [trimEnd, hc]
    · have e1 : trimEnd (c :: cs) = c :: x :: xs := by rw [trimEnd_cons, h]
      rw [h] at ih
      rw [e1, trimEnd_cons, ih]

theorem dropWhile_shape {α} (p : α → Bool) (l : List α) :
    l.dropWhile p = [] ∨ ∃ c cs, l.dropWhile p = c :: cs ∧ p c = false := by
  induction l with
  | nil => exact Or.inl rfl
  | cons a l ih =>
    by_cases h : p a
    · simpa [List.dropWhile, h] using ih
    · exact Or.inr ⟨a, l, by simp [List.dropWhile, h], by simp [h]⟩

theorem trimWs_idem (s : Name) : trimWs (trimWs s) = trimWs s := by
  unfold trimWs
  rcases dropWhile_shape isWs s with h | ⟨c, cs, h, hc⟩
  · rw [h]; rfl
  · rw [h]
    rcases trimEnd_cons_shape c cs with h2 | ⟨r, h2⟩
    · rw [h2]; rfl
    · rw [h2]
      have : List.dropWhile isWs (c :: r) = c :: r := by simp [List.dropWhile, hc]
      rw [this, ← h2, trimEnd_idem]

theorem lowerName_idem (s : Name) : lowerName (lowerName s) = lowerName s := by
  simp [lowerName, List.map_map, Function.comp_def, toLowerC_idem]

theorem trimEnd_map_lower (s : Name) :
    trimEnd (lowerName s) = lowerName (trimEnd s) := by
  induction s with
  | nil => rfl
  | cons c cs ih =>
    show trimEnd (toLowerC c :: lowerName cs) = lowerName (trimEnd (c :: cs))
    rcases h : trimEnd cs with _ | ⟨x, xs⟩
    · have hmap : trimEnd (lowerName cs) = [] := by rw [ih, h]; rfl
      unfold trimEnd
      rw [hmap, h]
      by_cases hc : isWs c
      · simp [isWs_toLowerC, hc, lowerName]
      · simp [isWs_toLowerC, hc, lowerName]
    · have hmap : trimEnd (lowerName cs) = toLowerC x :: lowerName xs := by
        rw [ih, h]; rfl
      unfold trimEnd
      rw [hmap, h]
      simp [lowerName]

theorem lowerName_trimWs (s : Name) :
    lowerName (trimWs s) = trimWs (lowerName s) := by
  have hp : (isWs ∘ toLowerC) = isWs := funext isWs_toLowerC
  unfold trimWs
  rw [← trimEnd_map_lower]
  unfold lowerName
  rw [List.dropWhile_map, hp]

theorem normalizeString_idem (s : Name) :
    normalizeString (normalizeString s) = normalizeString s := by
  unfold normalizeString
  rw [lowerName_trimWs (lowerName s), lowerName_idem, trimWs_idem]

/-! ## Token and join lemmas -/

theorem tokensByAux_mem_ne_nil (keep : Char → Bool) :
    ∀ (l acc : List Char) (t : List Char), t ∈ tokensByAux keep l acc → t ≠ [] := by
  intro l
  induction l with
  | nil =>
    intro acc t ht
    unfold tokensByAux at ht
    by_cases h : acc = []
    · simp [h] at ht
    · simp [h] at ht
      simp [ht, h]
  | cons c cs ih =>
    intro acc t ht
    unfold tokensByAux at ht
    by_cases hk : keep c
    · exact ih (c :: acc) t (by simpa [hk] using ht)
    · have ht2 : t ∈ (if acc = [] then [] else [acc.reverse]) ++ tokensByAux keep cs [] := by
        simpa [hk] using ht
      rw [List.mem_append] at ht2
      rcases ht2 with ht | ht
      · by_cases h : acc = []
        · simp [h] at ht
        · simp [h] at ht
          simp [ht, h]
      · exact ih [] t (by simpa using ht)

theorem tokensByAux_ne_nil_of_keep (keep : Char → Bool) (c : Char) (cs : List Char)
    (hk : keep c = true) : tokensByAux keep (c :: cs) [] ≠ [] := by
  unfold tokensByAux
  rw [hk]
  simp only
  intro hcontra
  have : ∀ (l acc : List Char), acc ≠ [] → tokensByAux keep l acc ≠ [] := by
    intro l
    induction l with
    | nil => intro acc ha; unfold tokensByAux; simp [ha]
    | cons d ds ih =>
      intro acc ha
      unfold tokensByAux
      by_cases hd : keep d
      · simpa [hd] using ih (d :: acc) (by simp)
      · simp [hd, ha]
  exact this cs [c] (by simp) hcontra

theorem joinSp_ne_nil (ts : List Name) (h : ts ≠ []) (h2 : ∀ t ∈ ts, t ≠ []) :
    joinSp ts ≠ [] := by
  match ts with
  | [] => exact absurd rfl h
  | [t] => exact h2 t (by simp)
  | t :: u :: rest =>
    show t ++ ' ' :: joinSp (u :: rest) ≠ []
    simp

theorem insertSorted_mem {x t : Name} : ∀ {ts : List Name},
    t ∈ insertSorted x ts ↔ t = x ∨ t ∈ ts := by
  intro ts
  induction ts with
  | nil => simp [insertSorted]
  | cons y ys ih =>
    unfold insertSorted
    by_cases h : lexLe x y
    · simp [h]
    · rw [if_neg h]
      simp only [List.mem_cons, ih]
      tauto

theorem insertSorted_ne_nil (x : Name) (ts : List Name) : insertSorted x ts ≠ [] := by
  cases ts with
  | nil => simp [insertSorted]
  | cons y ys =>
    unfold insertSorted
    split <;> simp

theorem sortTokens_mem {t : Name} : ∀ {ts : List Name}, t ∈ sortTokens ts ↔ t ∈ ts := by
  intro ts
  induction ts with
  | nil => simp [sortTokens]
  | cons u ts' ih =>
    show t ∈ insertSorted u (sortTokens ts') ↔ _
    rw [insertSorted_mem, ih]
    simp

theorem sortTokens_eq_nil_iff {ts : List Name} : sortTokens ts = [] ↔ ts = [] := by
  constructor
  · intro h
    rcases ts with _ | ⟨t, ts'⟩
    · rfl
    · exact absurd h (insertSorted_ne_nil t (sortTokens ts'))
  · intro h; rw [h]; rfl

/-- The sorted-joined string of one side of `tokenSortRatio`. -/
def sortedJoined (a : Name) : Name := joinSp (sortTokens (tokensWs (normalizeString a)))

theorem sortedJoined_ne_nil {a : Name} (h : normalizeString a ≠ []) :
    sortedJoined a ≠ [] := by
  unfold sortedJoined
  apply joinSp_ne_nil
  · rw [Ne, sortTokens_eq_nil_iff]
    intro htk
    rcases dropWhile_shape isWs (lowerName a) with hd | ⟨c, cs, hd, hc⟩
    · exact h (by unfold normalizeString trimWs; rw [hd]; rfl)
    · have : normalizeString a = trimEnd (c :: cs) := by
        unfold normalizeString trimWs; rw [hd]
      rcases trimEnd_cons_shape c cs with h2 | ⟨r, h2⟩
      · exact h (by rw [this, h2])
      · rw [this, h2] at htk
        exact tokensByAux_ne_nil_of_keep _ c r (by simp [hc]) htk
  · intro t ht
    exact tokensByAux_mem_ne_nil _ _ _ t (sortTokens_mem.1 ht)

/-! ## The DP matrix computes the classic Levenshtein distance -/

theorem levAux_nil_left (ys : List Char) : levAux [] ys = ys.length := by
  unfold levAux; rfl

theorem levAux_nil_right (xs : List Char) : levAux xs [] = xs.length := by
  cases xs <;> simp [levAux]

theorem levAux_cons_cons (x y : Char) (xs ys : List Char) :
    levAux (x :: xs) (y :: ys) =
      min (min (levAux xs (y :: ys) + 1) (levAux (x :: xs) ys + 1))
        (levAux xs ys + (if x = y then 0 else 1)) := by
  rw [levAux]

/-- The reversed prefixes of a string, shortest first, excluding the starting
accumulator itself: `revPrefTail rp [a, b] = [a :: rp, b :: a :: rp]`. -/
def revPrefTail (rp : List Char) : List Char → List (List Char)
  | [] => []
  | c :: cs => (c :: rp) :: revPrefTail (c :: rp) cs

theorem levRowGo_spec (c : Char) :
    ∀ (s rp t : List Char),
      levRowGo c s ((revPrefTail rp s).map (fun q => levAux q t))
        (levAux rp t) (levAux rp (c :: t)) =
      (revPrefTail rp s).map (fun q => levAux q (c :: t)) := by
  intro s
  induction s with
  | nil => intro rp t; rfl
  | cons a s' ih =>
    intro rp t
    show levRowGo c (a :: s')
        (levAux (a :: rp) t :: (revPrefTail (a :: rp) s').map (fun q => levAux q t))
        (levAux rp t) (levAux rp (c :: t)) = _
    unfold levRowGo
    have hcur : min (min (levAux (a :: rp) t + 1) (levAux rp (c :: t) + 1))
        (levAux rp t + (if a = c then 0 else 1)) = levAux (a :: rp) (c :: t) := by
      rw [levAux_cons_cons]
      omega
    simp only [hcur]
    rw [ih (a :: rp) t]
    rfl

/-- The row of the DP after the consumed (reversed) part `t` of the second
string: entry `j` is the distance between the reversed `j`-prefix of `s1`
and `t`. -/
def rowSpec (s1 t : List Char) : List Nat :=
  levAux [] t :: (revPrefTail [] s1).map (fun q => levAux q t)

theorem levRowFull_spec (s1 t : List Char) (c : Char) :
    levRowFull s1 (rowSpec s1 t) c = rowSpec s1 (c :: t) := by
  unfold rowSpec levRowFull
  simp only
  have h0 : levAux [] t + 1 = levAux [] (c :: t) := by
    rw [levAux_nil_left, levAux_nil_left]; rfl
  rw [h0]
  have := levRowGo_spec c s1 [] t
  rw [this]

theorem revPrefTail_map_length :
    ∀ (s rp : List Char), (revPrefTail rp s).map List.length =
      List.range' (rp.length + 1) s.length := by
  intro s
  induction s with
  | nil => intro rp; rfl
  | cons a s' ih =>
    intro rp
    show (a :: rp).length :: (revPrefTail (a :: rp) s').map List.length = _
    rw [ih (a :: rp)]
    simp only [List.length_cons]
    rw [List.range'_succ]

theorem rowSpec_nil (s1 : List Char) : rowSpec s1 [] = List.range (s1.length + 1) := by
  unfold rowSpec
  have h1 : (revPrefTail [] s1).map (fun q => levAux q []) =
      (revPrefTail [] s1).map List.length := by
    apply List.map_congr_left
    intro q _
    exact levAux_nil_right q
  rw [h1, revPrefTail_map_length s1 [], levAux_nil_left]
  rw [List.range_eq_range', List.range'_succ]
  rfl

theorem foldl_rowSpec (s1 : List Char) :
    ∀ (u t : List Char),
      u.foldl (levRowFull s1) (rowSpec s1 t) = rowSpec s1 (u.reverse ++ t) := by
  intro u
  induction u with
  | nil => intro t; rfl
  | cons c u' ih =>
    intro t
    show u'.foldl (levRowFull s1) (levRowFull s1 (rowSpec s1 t) c) = _
    rw [levRowFull_spec, ih (c :: t)]
    congr 1
    simp

theorem revPrefTail_getLastD :
    ∀ (s rp d : List Char), s ≠ [] → (revPrefTail rp s).getLastD d = s.reverse ++ rp := by
  intro s
  induction s with
  | nil => intro rp d h; exact absurd rfl h
  | cons a s' ih =>
    intro rp d _
    show ((a :: rp) :: revPrefTail (a :: rp) s').getLastD d = _
    rw [List.getLastD_cons]
    rcases Decidable.em (s' = []) with h' | h'
    · subst h'; rfl
    · rw [ih (a :: rp) (a :: rp) h']
      simp

theorem getLastD_map {α β} (f : α → β) :
    ∀ (l : List α) (d : α), (l.map f).getLastD (f d) = f (l.getLastD d) := by
  intro l
  induction l with
  | nil => intro d; rfl
  | cons a l' ih =>
    intro d
    rw [List.map_cons, List.getLastD_cons, List.getLastD_cons, ih a]

theorem rowSpec_getLastD (s1 t : List Char) :
    (rowSpec s1 t).getLastD 0 = levAux s1.reverse t := by
  unfold rowSpec
  rw [List.getLastD_cons]
  rcases Decidable.em (s1 = []) with h | h
  · subst h; simp [revPrefTail]
  · have : levAux [] t = (fun q => levAux q t) [] := rfl
    rw [this, getLastD_map (fun q => levAux q t) (revPrefTail [] s1) []]
    rw [revPrefTail_getLastD s1 [] [] h]
    simp

theorem levDP_eq_levenshtein (s1 s2 : List Char) : levDP s1 s2 = levenshtein s1 s2 := by
  unfold levDP levenshtein
  rw [← rowSpec_nil s1, foldl_rowSpec s1 s2 [], List.append_nil, rowSpec_getLastD]

theorem levAux_symm (xs : List Char) : ∀ ys, levAux xs ys = levAux ys xs := by
  induction xs with
  | nil => intro ys; rw [levAux_nil_left, levAux_nil_right]
  | cons x xs ih =>
    intro ys
    induction ys with
    | nil => rw [levAux_nil_left, levAux_nil_right]
    | cons y ys ih2 =>
      rw [levAux_cons_cons, levAux_cons_cons]
      rw [ih (y :: ys), ih2, ih ys]
      have hc : (if x = y then 0 else 1) = (if y = x then 0 else 1) := by
        by_cases h : x = y
        · simp [h]
        · have h' : y ≠ x := Ne.symm h
          rw [if_neg h, if_neg h']
      rw [hc]
      omega

theorem levAux_le_max (xs : List Char) :
    ∀ ys, levAux xs ys ≤ max xs.length ys.length := by
  induction xs with
  | nil => intro ys; rw [levAux_nil_left]; simp
  | cons x xs ih =>
    intro ys
    induction ys with
    | nil => rw [levAux_nil_right]; simp
    | cons y ys ih2 =>
      rw [levAux_cons_cons]
      have h1 := ih (y :: ys)
      have h3 := ih ys
      have hc : (if x = y then 0 else 1) ≤ 1 := by split <;> omega
      simp only [List.length_cons] at *
      omega

theorem levenshtein_symm (s1 s2 : List Char) :
    levenshtein s1 s2 = levenshtein s2 s1 := by
  unfold levenshtein
  rw [levAux_symm]

theorem levenshtein_le_max (s1 s2 : List Char) :
    levenshtein s1 s2 ≤ max s1.length s2.length := by
  unfold levenshtein
  simpa using levAux_le_max s1.reverse s2.reverse

theorem roundRatio_le_100 {num den : Nat} (h : num ≤ den) (hd : 0 < den) :
    roundRatio num den ≤ 100 := by
  unfold roundRatio
  rw [Nat.div_le_iff_le_mul_add_pred (by omega)]
  omega

theorem calculateRatio_symm (s1 s2 : Name) :
    calculateRatio s1 s2 = calculateRatio s2 s1 := by
  by_cases h : s1 = s2
  · subst h; rfl
  · have h' : s2 ≠ s1 := Ne.symm h
    unfold calculateRatio
    rw [if_neg h, if_neg h']
    by_cases h1 : s1.length = 0
    · have h2 : s2.length ≠ 0 := by
        intro h2
        apply h
        rw [List.length_eq_zero] at h1 h2
        rw [h1, h2]
      simp [h1, h2]
    · by_cases h2 : s2.length = 0
      · simp [h1, h2]
      · simp only [h1, h2, if_false]
        rw [levDP_eq_levenshtein, levDP_eq_levenshtein, levenshtein_symm s2 s1,
          max_comm s2.length s1.length]

theorem calculateRatio_le_100 (s1 s2 : Name) : calculateRatio s1 s2 ≤ 100 := by
  unfold calculateRatio
  by_cases h : s1 = s2
  · simp [h]
  · rw [if_neg h]
    by_cases h1 : s1.length = 0
    · rw [if_pos h1]; split <;> omega
    · rw [if_neg h1]
      by_cases h2 : s2.length = 0
      · rw [if_pos h2]; omega
      · rw [if_neg h2]
        simp only
        apply roundRatio_le_100 (Nat.sub_le _ _)
        omega

theorem tokenSortRatio_eq_spec (a b : Name) :
    tokenSortRatio a b = similarityRatioSpec a b := by
  unfold tokenSortRatio similarityRatioSpec calculateRatio
  set s1 := joinSp (sortTokens (tokensWs (normalizeString a))) with hs1
  set s2 := joinSp (sortTokens (tokensWs (normalizeString b))) with hs2
  by_cases h : s1 = s2
  · rw [if_pos h, if_pos h]
  · rw [if_neg h, if_neg h]
    by_cases h1 : s1 = []
    · have h2 : s2 ≠ [] := fun h2 => h (by rw [h1, h2])
      have h2l : s2.length ≠ 0 := fun hl => h2 (List.length_eq_zero.1 hl)
      rw [if_pos (by rw [h1]; rfl), if_pos h1, if_neg h2l]
    · have h1l : s1.length ≠ 0 := fun hl => h1 (List.length_eq_zero.1 hl)
      rw [if_neg h1l, if_neg h1]
      by_cases h2 : s2 = []
      · rw [if_pos (by rw [h2]; rfl), if_pos h2]
      · have h2l : s2.length ≠ 0 := fun hl => h2 (List.length_eq_zero.1 hl)
        rw [if_neg h2l, if_neg h2, levDP_eq_levenshtein]

theorem tokenSortRatio_self (a : Name) : tokenSortRatio a a = 100 := by
  unfold tokenSortRatio calculateRatio
  simp

theorem tokenSortRatio_le_100 (a b : Name) : tokenSortRatio a b ≤ 100 :=
  calculateRatio_le_100 _ _

theorem tokenSortRatio_symm (a b : Name) : tokenSortRatio a b = tokenSortRatio b a :=
  calculateRatio_symm _ _

theorem tokenSortRatio_norm (a b : Name) :
    tokenSortRatio (normalizeString a) (normalizeString b) = tokenSortRatio a b := by
  unfold tokenSortRatio
  rw [normalizeString_idem, normalizeString_idem]

theorem tokenSortRatio_nil_left {b : Name} (h : normalizeString b ≠ []) :
    tokenSortRatio [] b = 0 := by
  unfold tokenSortRatio calculateRatio
  have h2 : sortedJoined b ≠ [] := sortedJoined_ne_nil h
  set s2 := joinSp (sortTokens (tokensWs (normalizeString b))) with hs2
  have h1 : joinSp (sortTokens (tokensWs (normalizeString ([] : Name)))) = [] := by
    simp [normalizeString, trimWs, lowerName, tokensWs, tokensByAux, sortTokens, joinSp]
  rw [h1]
  have hne : ([] : Name) ≠ s2 := fun hh => h2 hh.symm
  have h2l : s2.length ≠ 0 := fun hl => h2 (List.length_eq_zero.1 hl)
  rw [if_neg hne]
  simp [h2l]

/-! ## The staged matcher -/

theorem fuzzyMatch_eq_matchSpec (c o : Name) (t : Nat) :
    fuzzyMatch c o t = matchSpec c o t := by
  unfold fuzzyMatch matchSpec
  dsimp only
  have hr : tokenSortRatio (normalizeString c) (normalizeString o) =
      similarityRatioSpec c o := by
    rw [tokenSortRatio_norm, tokenSortRatio_eq_spec]
  rw [hr]
  by_cases h1 : normalizeString c = normalizeString o
  · rw [if_pos h1, if_pos h1]
  · rw [if_neg h1, if_neg h1]
    by_cases h2 : t ≤ similarityRatioSpec c o
    · rw [if_pos h2, if_pos h2]
    · rw [if_neg h2, if_neg h2]
      by_cases h3 : 2 ≤ (tokensWs (normalizeString c)).length ∧
          2 ≤ (tokensWs (normalizeString o)).length
      · rw [if_pos h3]
        by_cases h4 : (tokensWs (normalizeString c)).getLastD [] =
            (tokensWs (normalizeString o)).getLastD []
        · have h34 : 2 ≤ (tokensWs (normalizeString c)).length ∧
              2 ≤ (tokensWs (normalizeString o)).length ∧
              (tokensWs (normalizeString c)).getLastD [] =
                (tokensWs (normalizeString o)).getLastD [] := ⟨h3.1, h3.2, h4⟩
          rw [if_pos h4, if_pos h34]
        · have h4' : ¬(2 ≤ (tokensWs (normalizeString c)).length ∧
              2 ≤ (tokensWs (normalizeString o)).length ∧
              (tokensWs (normalizeString c)).getLastD [] =
                (tokensWs (normalizeString o)).getLastD []) :=
            fun hh => h4 hh.2.2
          rw [if_neg h4, if_neg h4']
      · have h3' : ¬(2 ≤ (tokensWs (normalizeString c)).length ∧
            2 ≤ (tokensWs (normalizeString o)).length ∧
            (tokensWs (normalizeString c)).getLastD [] =
              (tokensWs (normalizeString o)).getLastD []) :=
          fun hh => h3 ⟨hh.1, hh.2.1⟩
        rw [if_neg h3, if_neg h3']

theorem any_inter_symm (l1 l2 : List Name) :
    (l1.any fun cv => l2.any fun tv => cv = tv) =
    (l2.any fun cv => l1.any fun tv => cv = tv) := by
  rcases h : (l2.any fun cv => l1.any fun tv => cv = tv) with _ | _
  · rw [Bool.eq_false_iff]
    intro hcontra
    rw [List.any_eq_true] at hcontra
    obtain ⟨x, hx, hxx⟩ := hcontra
    rw [List.any_eq_true] at hxx
    obtain ⟨y, hy, e⟩ := hxx
    rw [Bool.eq_false_iff] at h
    apply h
    rw [List.any_eq_true]
    refine ⟨y, hy, ?_⟩
    rw [List.any_eq_true]
    exact ⟨x, hx, by simpa [eq_comm] using e⟩
  · rw [List.any_eq_true] at h
    obtain ⟨x, hx, hxx⟩ := h
    rw [List.any_eq_true] at hxx
    obtain ⟨y, hy, e⟩ := hxx
    rw [List.any_eq_true]
    refine ⟨y, hy, ?_⟩
    rw [List.any_eq_true]
    exact ⟨x, hx, by simpa [eq_comm] using e⟩

theorem isPartialNameMatch_symm (a b : Name) :
    isPartialNameMatch a b = isPartialNameMatch b a := by
  unfold isPartialNameMatch
  by_cases h : 3 ≤ (normalizeString a).length ∧ 3 ≤ (normalizeString b).length
  · rw [if_pos h, if_pos ⟨h.2, h.1⟩, Bool.or_comm]
  · rw [if_neg h, if_neg (fun hh => h ⟨hh.2, hh.1⟩)]

theorem fuzzyMatch_symm (a b : Name) (t : Nat) :
    fuzzyMatch a b t = fuzzyMatch b a t := by
  unfold fuzzyMatch
  dsimp only
  by_cases h1 : normalizeString a = normalizeString b
  · rw [if_pos h1, if_pos h1.symm]
  · have h1' : normalizeString b ≠ normalizeString a := Ne.symm h1
    rw [if_neg h1, if_neg h1']
    rw [tokenSortRatio_symm (normalizeString a) (normalizeString b)]
    by_cases h2 : t ≤ tokenSortRatio (normalizeString b) (normalizeString a)
    · rw [if_pos h2, if_pos h2]
    · rw [if_neg h2, if_neg h2]
      by_cases h3 : 2 ≤ (tokensWs (normalizeString a)).length ∧
          2 ≤ (tokensWs (normalizeString b)).length
      · have h3' : 2 ≤ (tokensWs (normalizeString b)).length ∧
            2 ≤ (tokensWs (normalizeString a)).length := ⟨h3.2, h3.1⟩
        rw [if_pos h3, if_pos h3']
        by_cases h4 : (tokensWs (normalizeString a)).getLastD [] =
            (tokensWs (normalizeString b)).getLastD []
        · rw [if_pos h4, if_pos h4.symm]
          rw [any_inter_symm]
          by_cases h5 : ((getNameVariations ((tokensWs (normalizeString b)).headD [])).any
              fun cv => (getNameVariations ((tokensWs (normalizeString a)).headD [])).any
                fun tv => cv = tv) = true
          · rw [if_pos h5, if_pos h5]
          · rw [if_neg h5, if_neg h5,
              isPartialNameMatch_symm ((tokensWs (normalizeString a)).headD [])]
        · have h4' : (tokensWs (normalizeString b)).getLastD [] ≠
              (tokensWs (normalizeString a)).getLastD [] := Ne.symm h4
          rw [if_neg h4, if_neg h4']
      · have h3' : ¬(2 ≤ (tokensWs (normalizeString b)).length ∧
            2 ≤ (tokensWs (normalizeString a)).length) := fun hh => h3 ⟨hh.2, hh.1⟩
        rw [if_neg h3, if_neg h3']

theorem fuzzyMatch_none_of_empty_left {a b : Name} (t : Nat) (ht : 0 < t)
    (ha : normalizeString a = []) (hb : normalizeString b ≠ []) :
    fuzzyMatch a b t = ⟨false, 0, "none"⟩ := by
  unfold fuzzyMatch
  have hne : normalizeString a ≠ normalizeString b := fun hh => hb (hh ▸ ha)
  rw [if_neg hne, ha]
  have hscore : tokenSortRatio [] (normalizeString b) = 0 := by
    apply tokenSortRatio_nil_left
    rw [normalizeString_idem]
    exact hb
  rw [hscore, if_neg (by omega)]
  have hparts : tokensWs ([] : Name) = [] := rfl
  rw [hparts]
  rw [if_neg (by simp)]

/-! ## Claim theorems: the staged matcher and the similarity ratio -/

/-- C1: for all strings and every threshold, the source `fuzzyMatch`
implements the staged reference algorithm of the specification
(`matchSpec`) with first-success-wins precedence — exact (independent of the
threshold, as the second conjunct states explicitly), then fuzzy at the
threshold, then nickname/partial under the two-part and equal-surname
precondition, and otherwise a "none" result carrying the stage-2 ratio. -/
theorem C1_staged_matcher_refines_spec :
    (∀ c o t, fuzzyMatch c o t = matchSpec c o t) ∧
    (∀ c o t, normalizeString c = normalizeString o →
      fuzzyMatch c o t = ⟨true, 100, "exact"⟩) := by
  constructor
  · exact fuzzyMatch_eq_matchSpec
  · intro c o t h
    unfold fuzzyMatch
    dsimp only
    rw [if_pos h]

/-- C1 witness: the exact stage fires for "Jane Doe" vs itself at an
arbitrary low threshold. -/
theorem C1_staged_matcher_refines_spec_witness :
    fuzzyMatch (nm "Jane Doe") (nm "Jane Doe") 5 = ⟨true, 100, "exact"⟩ :=
  C1_staged_matcher_refines_spec.2 (nm "Jane Doe") (nm "Jane Doe") 5 (by decide)

/-- C3 counterexample: the claim says one empty and one non-empty string
give ratio 0, but a whitespace-only (hence non-empty) string normalizes to
empty and gives 100 against the empty string. -/
theorem C3_counterexample : tokenSortRatio (nm "") (nm " ") = 100 ∧ nm " " ≠ nm "" := by
  constructor
  · decide
  · decide

/-- C3 (amended): `similarityRatio` is the token-sort-ratio reference
definition (an integer in 0..100, round half up); identical strings give
100, two empty strings give 100, an empty string against a string that does
not normalize to empty gives 0 (a whitespace-only string normalizes to
empty and gives 100 instead), and "John Smith" vs "Smith John" gives 100. -/
theorem C3_token_sort_ratio_reference :
    (∀ a b, tokenSortRatio a b = similarityRatioSpec a b) ∧
    (∀ a b, tokenSortRatio a b ≤ 100) ∧
    (∀ a, tokenSortRatio a a = 100) ∧
    tokenSortRatio (nm "") (nm "") = 100 ∧
    (∀ b, normalizeString b ≠ [] → tokenSortRatio (nm "") b = 0) ∧
    tokenSortRatio (nm "John Smith") (nm "Smith John") = 100 := by
  refine ⟨tokenSortRatio_eq_spec, tokenSortRatio_le_100, tokenSortRatio_self,
    by decide, ?_, by decide⟩
  intro b hb
  exact tokenSortRatio_nil_left hb

/-- C3 witness: the empty string against "x" gives 0. -/
theorem C3_token_sort_ratio_reference_witness : tokenSortRatio (nm "") (nm "x") = 0 :=
  C3_token_sort_ratio_reference.2.2.2.2.1 (nm "x") (by decide)

/-- C4 counterexample: on two empty strings the matcher returns an exact
match (score 100), not a "none" result as the claim states. -/
theorem C4_counterexample :
    fuzzyMatch (nm "") (nm "") 90 = ⟨true, 100, "exact"⟩ ∧
    (fuzzyMatch (nm "") (nm "") 90).matchType ≠ "none" := by
  constructor
  · decide
  · decide

/-- C4 (amended): the matcher is a total function; when exactly one argument
normalizes to empty (empty or whitespace-only) and the threshold is
positive, the result is the "none" MatchResult with score 0 (in either
argument order); when both normalize to empty the exact stage fires and
returns an exact match with score 100. -/
theorem C4_empty_input_behavior :
    (∀ a b t, 0 < t → normalizeString a = [] → normalizeString b ≠ [] →
      fuzzyMatch a b t = ⟨false, 0, "none"⟩ ∧
      fuzzyMatch b a t = ⟨false, 0, "none"⟩) ∧
    (∀ a b t, normalizeString a = [] → normalizeString b = [] →
      fuzzyMatch a b t = ⟨true, 100, "exact"⟩) := by
  constructor
  · intro a b t ht ha hb
    have h1 := fuzzyMatch_none_of_empty_left t ht ha hb
    exact ⟨h1, by rw [fuzzyMatch_symm b a t]; exact h1⟩
  · intro a b t ha hb
    unfold fuzzyMatch
    dsimp only
    rw [if_pos (by rw [ha, hb])]

/-- C4 witness: a whitespace-only contact name against "Bob" at threshold 90
yields the "none" result. -/
theorem C4_empty_input_behavior_witness :
    fuzzyMatch (nm " ") (nm "Bob") 90 = ⟨false, 0, "none"⟩ :=
  (C4_empty_input_behavior.1 (nm " ") (nm "Bob") 90 (by decide) (by decide)
    (by decide)).1

/-- C9: `isPartialNameMatch` returns true exactly when one normalized name
is a prefix of the other and both normalized names have at least 3
characters; "Ale"/"Alexander" passes, "Al"/"Albert" fails the floor. -/
theorem C9_partial_match_three_char_floor :
    (∀ a b, isPartialNameMatch a b = true ↔
      (3 ≤ (normalizeString a).length ∧ 3 ≤ (normalizeString b).length ∧
        (normalizeString a <+: normalizeString b ∨
         normalizeString b <+: normalizeString a))) ∧
    isPartialNameMatch (nm "Ale") (nm "Alexander") = true ∧
    isPartialNameMatch (nm "Al") (nm "Albert") = false := by
  refine ⟨?_, by decide, by decide⟩
  intro a b
  unfold isPartialNameMatch
  by_cases h : 3 ≤ (normalizeString a).length ∧ 3 ≤ (normalizeString b).length
  · rw [if_pos h]
    simp only [Bool.or_eq_true, List.isPrefixOf_iff_prefix]
    constructor
    · intro hp
      exact ⟨h.1, h.2, hp⟩
    · intro hp
      exact hp.2.2
  · rw [if_neg h]
    constructor
    · intro hf; exact absurd hf (by simp)
    · intro hp; exact absurd ⟨hp.1, hp.2.1⟩ h

/-- C9 witness: the characterization applied to "Rob"/"Robert". -/
theorem C9_partial_match_three_char_floor_witness :
    3 ≤ (normalizeString (nm "Rob")).length ∧
    3 ≤ (normalizeString (nm "Robert")).length ∧
    (normalizeString (nm "Rob") <+: normalizeString (nm "Robert") ∨
     normalizeString (nm "Robert") <+: normalizeString (nm "Rob")) :=
  (C9_partial_match_three_char_floor.1 (nm "Rob") (nm "Robert")).1 (by decide)

/-- C10: the staged matcher is symmetric in its two name arguments — same
isMatch, same score and same matchType in both orders, for every
threshold. -/
theorem C10_match_symmetric : ∀ a b t, fuzzyMatch a b t = fuzzyMatch b a t :=
  fuzzyMatch_symm

/-! ## Claim theorems: the alias table -/

/-- Whether the table entry for `c` lists `n` among its variants (the
back-reference the bidirectionality claim requires). -/
def backRef (n c : Name) : Bool :=
  match jsMapGet NAME_VARIATIONS c with
  | some l => decide (n ∈ l)
  | none => false

set_option maxRecDepth 8000 in
/-- C5 counterexample: the key "jay" lists "james" among its variants, but
the entry for "james" (['jim', 'jimmy']) does not list "jay" back, so the
table is not bidirectional as claimed. -/
theorem C5_counterexample :
    nm "james" ∈ (jsMapGet NAME_VARIATIONS (nm "jay")).getD [] ∧
    backRef (nm "jay") (nm "james") = false := by decide

set_option maxRecDepth 40000 in
/-- C5 (amended): the static alias table is bidirectional — every variant
listed under a key maps back to that key — except for exactly three listed
pairs: "jay" lists "james" but "james" does not list "jay", and "al" lists
"alan" and "allen" but neither lists "al" back. -/
theorem C5_alias_table_bidirectional_except :
    ∀ p ∈ NAME_VARIATIONS, ∀ c ∈ p.2,
      (p.1 = nm "jay" ∧ c = nm "james") ∨
      (p.1 = nm "al" ∧ (c = nm "alan" ∨ c = nm "allen")) ∨
      backRef p.1 c = true := by decide

set_option maxRecDepth 8000 in
/-- C5 witness: the table entry ("dan", ["daniel"]) is bidirectional. -/
theorem C5_alias_table_bidirectional_except_witness :
    backRef (nm "dan") (nm "daniel") = true :=
  ((C5_alias_table_bidirectional_except (nm "dan", [nm "daniel"]) (by decide)
    (nm "daniel") (by decide)).resolve_left (by decide)).resolve_left (by decide)

/-! ## The first-name-variant index -/

theorem foldl_preserve {α β : Type _} (P : α → Prop) (f : α → β → α) :
    ∀ (l : List β) (a : α), (∀ x b, b ∈ l → P x → P (f x b)) → P a → P (l.foldl f a) := by
  intro l
  induction l with
  | nil => intro a _ ha; exact ha
  | cons b l ih =>
    intro a h ha
    exact ih (f a b) (fun x b' hb' hx => h x b' (List.mem_cons_of_mem _ hb') hx)
      (h a b (List.mem_cons_self _ _) ha)

theorem mapFind?_cons (a : Name) (b : List Contact) (l : NameMap) (k : Name) :
    mapFind? ((a, b) :: l) k = if a = k then some b else mapFind? l k := by
  unfold mapFind?
  simp only [List.find?]
  by_cases h : a = k
  · simp [h]
  · simp [h]

theorem mapFind?_mapSet_self (m : NameMap) (k : Name) (v : List Contact) :
    mapFind? (mapSet m k v) k = some v := by
  induction m with
  | nil => rw [show mapSet [] k v = [(k, v)] from rfl, mapFind?_cons]; simp
  | cons p rest ih =>
    obtain ⟨k', v'⟩ := p
    unfold mapSet
    by_cases h : k' = k
    · rw [if_pos h, mapFind?_cons, if_pos rfl]
    · rw [if_neg h, mapFind?_cons, if_neg h]
      exact ih

theorem mapFind?_mapSet_other (m : NameMap) (k : Name) (v : List Contact)
    (k' : Name) (h : k' ≠ k) : mapFind? (mapSet m k v) k' = mapFind? m k' := by
  have h' : k ≠ k' := Ne.symm h
  induction m with
  | nil => rw [show mapSet [] k v = [(k, v)] from rfl, mapFind?_cons, if_neg h']
  | cons p rest ih =>
    obtain ⟨k'', v''⟩ := p
    unfold mapSet
    by_cases h2 : k'' = k
    · rw [if_pos h2, mapFind?_cons, if_neg h', mapFind?_cons, if_neg (h2 ▸ h')]
    · rw [if_neg h2, mapFind?_cons, mapFind?_cons]
      by_cases h3 : k'' = k'
      · rw [if_pos h3, if_pos h3]
      · rw [if_neg h3, if_neg h3]
        exact ih

theorem mapGetD_mapSet_self (m : NameMap) (k : Name) (v : List Contact) :
    mapGetD (mapSet m k v) k = v := by
  unfold mapGetD
  rw [mapFind?_mapSet_self]
  rfl

theorem mapGetD_mapSet_other (m : NameMap) (k : Name) (v : List Contact)
    (k' : Name) (h : k' ≠ k) : mapGetD (mapSet m k v) k' = mapGetD m k' := by
  unfold mapGetD
  rw [mapFind?_mapSet_other m k v k' h]

theorem addVariation_mem_mono (c : Contact) (m : NameMap) (v k : Name)
    (x : Contact) (hx : x ∈ mapGetD m k) : x ∈ mapGetD (addVariation c m v) k := by
  unfold addVariation
  dsimp only
  split
  · exact hx
  · by_cases h : k = v
    · subst h
      rw [mapGetD_mapSet_self]
      exact List.mem_append_left _ hx
    · rw [mapGetD_mapSet_other _ _ _ _ h]
      exact hx

theorem addVariation_establish (c : Contact) (m : NameMap) (v : Name) :
    ∃ x ∈ mapGetD (addVariation c m v) v, x.id = c.id := by
  unfold addVariation
  dsimp only
  split
  · rename_i hany
    rw [List.any_eq_true] at hany
    obtain ⟨x, hx, he⟩ := hany
    exact ⟨x, hx, by simpa using he⟩
  · rw [mapGetD_mapSet_self]
    exact ⟨c, List.mem_append_right _ (by simp), rfl⟩

theorem addVariation_pairwise (c : Contact) (m : NameMap) (v : Name)
    (h : ∀ k, (mapGetD m k).Pairwise (fun a b => a.id ≠ b.id)) :
    ∀ k, (mapGetD (addVariation c m v) k).Pairwise (fun a b => a.id ≠ b.id) := by
  intro k
  unfold addVariation
  dsimp only
  split
  · exact h k
  · rename_i hany
    by_cases hk : k = v
    · subst hk
      rw [mapGetD_mapSet_self]
      rw [List.pairwise_append]
      refine ⟨h k, List.pairwise_singleton _ _, ?_⟩
      intro a ha b hb
      rw [List.mem_singleton] at hb
      subst hb
      intro he
      apply hany
      rw [List.any_eq_true]
      exact ⟨a, ha, by simpa using he⟩
    · rw [mapGetD_mapSet_other _ _ _ _ hk]
      exact h k

theorem addVariation_value_prov (P : Contact → Prop) (c : Contact) (m : NameMap)
    (v : Name) (h : ∀ k x, x ∈ mapGetD m k → P x) (hc : P c) :
    ∀ k x, x ∈ mapGetD (addVariation c m v) k → P x := by
  intro k x hx
  unfold addVariation at hx
  dsimp only at hx
  split at hx
  · exact h k x hx
  · by_cases hk : k = v
    · subst hk
      rw [mapGetD_mapSet_self] at hx
      rcases List.mem_append.1 hx with hx | hx
      · exact h k x hx
      · rw [List.mem_singleton] at hx
        subst hx
        exact hc
    · rw [mapGetD_mapSet_other _ _ _ _ hk] at hx
      exact h k x hx

theorem addVariation_key_prov (Q : Name → Contact → Prop) (c : Contact)
    (m : NameMap) (v : Name) (h : ∀ k x, x ∈ mapGetD m k → Q k x) (hc : Q v c) :
    ∀ k x, x ∈ mapGetD (addVariation c m v) k → Q k x := by
  intro k x hx
  unfold addVariation at hx
  dsimp only at hx
  split at hx
  · exact h k x hx
  · by_cases hk : k = v
    · subst hk
      rw [mapGetD_mapSet_self] at hx
      rcases List.mem_append.1 hx with hx | hx
      · exact h k x hx
      · rw [List.mem_singleton] at hx
        subst hx
        exact hc
    · rw [mapGetD_mapSet_other _ _ _ _ hk] at hx
      exact h k x hx

theorem foldl_addVariation_establish (c : Contact) :
    ∀ (vs : List Name) (m : NameMap) (v : Name), v ∈ vs →
      ∃ x ∈ mapGetD (vs.foldl (addVariation c) m) v, x.id = c.id := by
  intro vs
  induction vs with
  | nil => intro m v hv; simp at hv
  | cons u vs' ih =>
    intro m v hv
    rcases List.mem_cons.1 hv with he | hm
    · subst he
      show ∃ x ∈ mapGetD (vs'.foldl (addVariation c) (addVariation c m v)) v, _
      apply foldl_preserve (fun mm => ∃ x ∈ mapGetD mm v, x.id = c.id)
        (addVariation c) vs' (addVariation c m v)
      · intro mm u' _ ⟨x, hx, he⟩
        exact ⟨x, addVariation_mem_mono c mm u' v x hx, he⟩
      · exact addVariation_establish c m v
    · exact ih (addVariation c m u) v hm

theorem addContact_mem_mono (m : NameMap) (c : Contact) (k : Name) (x : Contact)
    (hx : x ∈ mapGetD m k) : x ∈ mapGetD (addContact m c) k := by
  unfold addContact
  split
  · exact hx
  · exact foldl_preserve (fun mm => x ∈ mapGetD mm k) (addVariation c) _ m
      (fun mm v _ h => addVariation_mem_mono c mm v k x h) hx

theorem addContact_establish (m : NameMap) (c : Contact)
    (h1 : ¬(c.first_name = [] ∨ c.last_name = [])) :
    ∀ v ∈ getNameVariations c.first_name,
      ∃ x ∈ mapGetD (addContact m c) v, x.id = c.id := by
  intro v hv
  unfold addContact
  rw [if_neg h1]
  exact foldl_addVariation_establish c _ m v hv

theorem createFirstNameMap_complete :
    ∀ (l : List Contact) (m : NameMap) (c : Contact), c ∈ l →
      ¬(c.first_name = [] ∨ c.last_name = []) →
      ∀ v ∈ getNameVariations c.first_name,
        ∃ x ∈ mapGetD (l.foldl addContact m) v, x.id = c.id := by
  intro l
  induction l with
  | nil => intro m c hc; simp at hc
  | cons d ds ih =>
    intro m c hc hn v hv
    rcases List.mem_cons.1 hc with he | hm
    · subst he
      show ∃ x ∈ mapGetD (ds.foldl addContact (addContact m c)) v, _
      apply foldl_preserve (fun mm => ∃ x ∈ mapGetD mm v, x.id = c.id)
        addContact ds (addContact m c)
      · intro mm d' _ ⟨x, hx, he⟩
        exact ⟨x, addContact_mem_mono mm d' v x hx, he⟩
      · exact addContact_establish m c hn v hv
    · exact ih (addContact m d) c hm hn v hv

theorem createFirstNameMap_pairwise (contacts : List Contact) (k : Name) :
    (mapGetD (createFirstNameMap contacts) k).Pairwise (fun a b => a.id ≠ b.id) := by
  unfold createFirstNameMap
  have h := foldl_preserve
    (fun mm => ∀ k', (mapGetD mm k').Pairwise (fun a b => a.id ≠ b.id))
    addContact contacts []
    (fun mm c _ hmm => by
      unfold addContact
      split
      · exact hmm
      · exact foldl_preserve _ (addVariation c) _ mm
          (fun mm' v _ h' => addVariation_pairwise c mm' v h') hmm)
    (fun k' => by simp [mapGetD, mapFind?, List.find?])
  exact h k

theorem createFirstNameMap_value_prov (contacts : List Contact) :
    ∀ k x, x ∈ mapGetD (createFirstNameMap contacts) k →
      x ∈ contacts ∧ x.first_name ≠ [] ∧ x.last_name ≠ [] := by
  unfold createFirstNameMap
  have h := foldl_preserve
    (fun mm => ∀ k x, x ∈ mapGetD mm k →
      x ∈ contacts ∧ x.first_name ≠ [] ∧ x.last_name ≠ [])
    addContact contacts []
    (fun mm c hc hmm => by
      unfold addContact
      split
      · exact hmm
      · rename_i hn
        push_neg at hn
        have : ∀ (vs : List Name) (mm' : NameMap),
            (∀ k x, x ∈ mapGetD mm' k →
              x ∈ contacts ∧ x.first_name ≠ [] ∧ x.last_name ≠ []) →
            ∀ k x, x ∈ mapGetD (vs.foldl (addVariation c) mm') k →
              x ∈ contacts ∧ x.first_name ≠ [] ∧ x.last_name ≠ [] := by
          intro vs
          induction vs with
          | nil => intro mm' hmm'; exact hmm'
          | cons v vs' ihv =>
            intro mm' hmm'
            exact ihv (addVariation c mm' v)
              (addVariation_value_prov _ c mm' v hmm' ⟨hc, hn.1, hn.2⟩)
        exact this _ mm hmm)
    (fun k x hx => by simp [mapGetD, mapFind?, List.find?] at hx)
  exact h

theorem createFirstNameMap_key_prov (contacts : List Contact) :
    ∀ k x, x ∈ mapGetD (createFirstNameMap contacts) k →
      k ∈ getNameVariations x.first_name := by
  unfold createFirstNameMap
  exact foldl_preserve
    (fun mm => ∀ k x, x ∈ mapGetD mm k → k ∈ getNameVariations x.first_name)
    addContact contacts []
    (fun mm c _ hmm => by
      unfold addContact
      split
      · exact hmm
      · exact foldl_preserve
          (fun mm' => ∀ k x, x ∈ mapGetD mm' k → k ∈ getNameVariations x.first_name)
          (addVariation c) (getNameVariations c.first_name) mm
          (fun mm' v hv h' => addVariation_key_prov _ c mm' v h' hv) hmm)
    (fun k x hx => by simp [mapGetD, mapFind?, List.find?] at hx)

/-- C8: every contact with both names appears in the first-name-variant
index under each of its first-name variations (in particular under its
normalized first name, which heads its variation list); no key's list holds
two contacts with the same id; and everything stored in the index is an
input contact having both names (contacts missing a name appear under no
key). -/
theorem C8_first_name_index_invariants :
    (∀ name, normalizeString name ∈ getNameVariations name) ∧
    (∀ (contacts : List Contact) (c : Contact), c ∈ contacts →
      c.first_name ≠ [] → c.last_name ≠ [] →
      ∀ v ∈ getNameVariations c.first_name,
        ∃ x ∈ mapGetD (createFirstNameMap contacts) v, x.id = c.id) ∧
    (∀ (contacts : List Contact) (k : Name),
      (mapGetD (createFirstNameMap contacts) k).Pairwise (fun a b => a.id ≠ b.id)) ∧
    (∀ (contacts : List Contact) (k : Name) (x : Contact),
      x ∈ mapGetD (createFirstNameMap contacts) k →
      x ∈ contacts ∧ x.first_name ≠ [] ∧ x.last_name ≠ []) := by
  refine ⟨?_, ?_, createFirstNameMap_pairwise, createFirstNameMap_value_prov⟩
  · intro name
    unfold getNameVariations
    exact List.mem_cons_self _ _
  · intro contacts c hc h1 h2 v hv
    exact createFirstNameMap_complete contacts [] c hc (not_or.mpr ⟨h1, h2⟩) v hv

set_option maxRecDepth 8000 in
/-- C8 witness: the contact (1, Robert, Downey) is indexed under the
nickname key "bob". -/
theorem C8_first_name_index_invariants_witness :
    ∃ x ∈ mapGetD (createFirstNameMap [⟨1, nm "Robert", nm "Downey"⟩]) (nm "bob"),
      x.id = 1 :=
  C8_first_name_index_invariants.2.1 [⟨1, nm "Robert", nm "Downey"⟩]
    ⟨1, nm "Robert", nm "Downey"⟩ (by decide) (by decide) (by decide)
    (nm "bob") (by decide)

/-! ## The candidate set of the enhanced matching loop -/

theorem addUnique_mem (acc cs : List Contact) (c : Contact)
    (h : c ∈ addUnique acc cs) : c ∈ acc ∨ c ∈ cs := by
  unfold addUnique at h
  induction cs generalizing acc with
  | nil => exact Or.inl h
  | cons d ds ih =>
    rcases ih (if d ∈ acc then acc else acc ++ [d]) h with h2 | h2
    · split at h2
      · exact Or.inl h2
      · rcases List.mem_append.1 h2 with h3 | h3
        · exact Or.inl h3
        · rw [List.mem_singleton] at h3
          exact Or.inr (h3 ▸ List.mem_cons_self _ _)
    · exact Or.inr (List.mem_cons_of_mem _ h2)

theorem foldl_addUnique_mem (m : NameMap) (c : Contact) :
    ∀ (vs : List Name) (acc : List Contact),
      c ∈ vs.foldl (fun acc v => addUnique acc (mapGetD m v)) acc →
      c ∈ acc ∨ ∃ v ∈ vs, c ∈ mapGetD m v := by
  intro vs
  induction vs with
  | nil => intro acc h; exact Or.inl h
  | cons u vs' ih =>
    intro acc h
    rcases ih (addUnique acc (mapGetD m u)) h with h2 | ⟨v, hv, h3⟩
    · rcases addUnique_mem acc (mapGetD m u) c h2 with h3 | h3
      · exact Or.inl h3
      · exact Or.inr ⟨u, List.mem_cons_self _ _, h3⟩
    · exact Or.inr ⟨v, List.mem_cons_of_mem _ hv, h3⟩

theorem findCandidatesForName_mem (m : NameMap) (name : Name) (c : Contact)
    (h : c ∈ findCandidatesForName m name) :
    ∃ v ∈ extractFirstNameVariations name, c ∈ mapGetD m v := by
  unfold findCandidatesForName at h
  rcases foldl_addUnique_mem m c (extractFirstNameVariations name) [] h with h2 | h2
  · simp at h2
  · exact h2

theorem creditComparisons_mem (m : NameMap) (tmdbName : Name) (c : Contact)
    (r : MatchResult) (h : (c, r) ∈ creditComparisons m tmdbName) :
    c ∈ findCandidatesForName m tmdbName := by
  unfold creditComparisons at h
  dsimp only at h
  split at h
  · simp at h
  · rw [List.mem_filterMap] at h
    obtain ⟨a, ha, he⟩ := h
    split at he
    · exact absurd he (by simp)
    · rw [Option.some_inj] at he
      have : a = c := congrArg Prod.fst he
      exact this ▸ ha

/-- C6: the enhanced matching loop invokes the matcher on a contact only if
that contact is in the candidate set obtained by looking up every variation
of the observed name's first token in the first-name-variant index; every
compared contact shares a first-name variant with the observed name (a
contact sharing none is never compared); and an empty candidate set
short-circuits to no comparisons at all. -/
theorem C6_candidate_pruning :
    (∀ (contacts : List Contact) (tmdbName : Name) (c : Contact) (r : MatchResult),
      (c, r) ∈ creditComparisons (createFirstNameMap contacts) tmdbName →
        c ∈ findCandidatesForName (createFirstNameMap contacts) tmdbName ∧
        (∃ v ∈ extractFirstNameVariations tmdbName,
          c ∈ mapGetD (createFirstNameMap contacts) v) ∧
        (∃ v ∈ extractFirstNameVariations tmdbName,
          v ∈ getNameVariations c.first_name)) ∧
    (∀ (m : NameMap) (tmdbName : Name),
      findCandidatesForName m tmdbName = [] → creditComparisons m tmdbName = []) := by
  constructor
  · intro contacts tmdbName c r h
    have h1 := creditComparisons_mem _ _ _ _ h
    have h2 := findCandidatesForName_mem _ _ _ h1
    refine ⟨h1, h2, ?_⟩
    obtain ⟨v, hv, hm⟩ := h2
    exact ⟨v, hv, createFirstNameMap_key_prov contacts v c hm⟩
  · intro m tmdbName he
    unfold creditComparisons
    dsimp only
    split
    · rfl
    · rw [he]
      rfl

set_option maxRecDepth 8000 in
/-- C6 witness: for the single contact (1, Robert, Downey) and the observed
credit "Bob Downey", the one comparison performed is against a contact in
the candidate set that shares the variant "robert" with the observed first
token "bob". -/
theorem C6_candidate_pruning_witness :
    ⟨1, nm "Robert", nm "Downey"⟩ ∈
      findCandidatesForName (createFirstNameMap [⟨1, nm "Robert", nm "Downey"⟩])
        (nm "Bob Downey") ∧
    (∃ v ∈ extractFirstNameVariations (nm "Bob Downey"),
      v ∈ getNameVariations (nm "Robert")) := by
  have h := C6_candidate_pruning.1 [⟨1, nm "Robert", nm "Downey"⟩] (nm "Bob Downey")
    ⟨1, nm "Robert", nm "Downey"⟩ ⟨true, 95, "nickname"⟩ (by decide)
  exact ⟨h.1, h.2.2⟩

/-! ## The news-article scanner: dedup and location choice -/

theorem isSub_correct (n : Name) : ∀ h : Name, isSub n h = true ↔ n <:+: h := by
  intro h
  induction h with
  | nil =>
    unfold isSub
    simp [List.isPrefixOf_iff_prefix]
  | cons x t ih =>
    unfold isSub
    rw [Bool.or_eq_true, List.isPrefixOf_iff_prefix, ih, List.infix_cons_iff]

theorem isSub_ne_nil {n h : Name} (hs : isSub n h = true) (hn : n ≠ []) : h ≠ [] := by
  intro he
  subst he
  rw [isSub_correct] at hs
  exact hn (List.eq_nil_of_infix_nil hs)

theorem fullNameOf_ne_nil (c : Contact) : fullNameOf c ≠ [] := by
  unfold fullNameOf
  cases h : c.first_name <;> simp

theorem lowerName_ne_nil {s : Name} (h : s ≠ []) : lowerName s ≠ [] := by
  unfold lowerName
  simpa using h

theorem dedupFirst_subset {x : Name} : ∀ {l : List Name}, x ∈ dedupFirst l → x ∈ l := by
  intro l
  induction l with
  | nil => intro h; exact h
  | cons a l ih =>
    intro h
    unfold dedupFirst at h
    rcases List.mem_cons.1 h with he | hm
    · exact he ▸ List.mem_cons_self _ _
    · exact List.mem_cons_of_mem _ (ih (List.mem_of_mem_filter hm))

theorem uniqueWordsOf_length {w combined : Name} (h : w ∈ uniqueWordsOf combined) :
    2 ≤ w.length := by
  unfold uniqueWordsOf at h
  have := dedupFirst_subset h
  rw [List.mem_filter] at this
  simpa using this.2

/-- The record the scan loop appends for contact `c`. -/
def recordFor (srcs : List (Loc × Name)) (full : Name) (c : Contact) : NewsRec :=
  ⟨c, chooseLocation srcs (lowerName (fullNameOf c)),
    findExcerpt
      (bestSourceText srcs full (chooseLocation srcs (lowerName (fullNameOf c))))
      (fullNameOf c) 300⟩

theorem processContact_eq (combined : Name) (srcs : List (Loc × Name)) (full : Name)
    (st : List Nat × List NewsRec) (c : Contact) :
    processContact combined srcs full st c = st ∨
    (c.id ∉ st.1 ∧ isSub (lowerName (fullNameOf c)) combined = true ∧
      processContact combined srcs full st c =
        (c.id :: st.1, st.2 ++ [recordFor srcs full c])) := by
  unfold processContact
  by_cases h1 : c.id ∈ st.1
  · left; rw [if_pos h1]
  · rw [if_neg h1]
    dsimp only
    by_cases h2 : isSub (lowerName (fullNameOf c)) combined
    · right
      exact ⟨h1, h2, by rw [if_pos h2]; rfl⟩
    · left
      rw [if_neg h2]

/-- What is true of every record the loop appends. -/
def recProp (combined : Name) (srcs : List (Loc × Name)) (full : Name)
    (r : NewsRec) : Prop :=
  isSub (lowerName (fullNameOf r.contact)) combined = true ∧
  r.matchLocation = chooseLocation srcs (lowerName (fullNameOf r.contact)) ∧
  r.excerpt = findExcerpt (bestSourceText srcs full r.matchLocation)
    (fullNameOf r.contact) 300

theorem recordFor_prop (combined : Name) (srcs : List (Loc × Name)) (full : Name)
    (c : Contact) (h : isSub (lowerName (fullNameOf c)) combined = true) :
    recProp combined srcs full (recordFor srcs full c) := by
  refine ⟨h, rfl, rfl⟩

theorem inner_fold_prov (combined : Name) (srcs : List (Loc × Name)) (full : Name) :
    ∀ (cl : List Contact) (st : List Nat × List NewsRec) (r : NewsRec),
      r ∈ (cl.foldl (processContact combined srcs full) st).2 →
      r ∈ st.2 ∨ (r.contact ∈ cl ∧ recProp combined srcs full r) := by
  intro cl
  induction cl with
  | nil => intro st r h; exact Or.inl h
  | cons d ds ih =>
    intro st r h
    rcases ih (processContact combined srcs full st d) r h with h2 | ⟨hm, hp⟩
    · rcases processContact_eq combined srcs full st d with he | ⟨_, hsub, he⟩
      · rw [he] at h2
        exact Or.inl h2
      · rw [he] at h2
        rcases List.mem_append.1 h2 with h3 | h3
        · exact Or.inl h3
        · rw [List.mem_singleton] at h3
          subst h3
          exact Or.inr ⟨List.mem_cons_self _ _,
            recordFor_prop combined srcs full d hsub⟩
    · exact Or.inr ⟨List.mem_cons_of_mem _ hm, hp⟩

theorem outer_fold_prov (m : NameMap) (combined : Name) (srcs : List (Loc × Name))
    (full : Name) :
    ∀ (ws : List Name) (st : List Nat × List NewsRec) (r : NewsRec),
      r ∈ (ws.foldl
          (fun st w => (mapGetD m w).foldl (processContact combined srcs full) st)
          st).2 →
      r ∈ st.2 ∨ ∃ w ∈ ws, r.contact ∈ mapGetD m w ∧ recProp combined srcs full r := by
  intro ws
  induction ws with
  | nil => intro st r h; exact Or.inl h
  | cons w ws' ih =>
    intro st r h
    rcases ih ((mapGetD m w).foldl (processContact combined srcs full) st) r h with
      h2 | ⟨w', hw', hm, hp⟩
    · rcases inner_fold_prov combined srcs full (mapGetD m w) st r h2 with h3 | ⟨hm, hp⟩
      · exact Or.inl h3
      · exact Or.inr ⟨w, List.mem_cons_self _ _, hm, hp⟩
    · exact Or.inr ⟨w', List.mem_cons_of_mem _ hw', hm, hp⟩

theorem checkArticle_mem (m : NameMap) (t e cn f : Name) (r : NewsRec)
    (h : r ∈ checkArticleForMatches m t e cn f) :
    ∃ w ∈ candidateLastNamesOf m (combinedLowerOf (sourcesOf t e cn f)),
      r.contact ∈ mapGetD m w ∧
      recProp (combinedLowerOf (sourcesOf t e cn f)) (sourcesOf t e cn f) f r := by
  unfold checkArticleForMatches at h
  rcases outer_fold_prov m _ _ f _ ([], []) r h with h2 | h2
  · simp at h2
  · exact h2

/-- The per-session seen-set invariant: every recorded contact id is in the
seen set, and recorded ids are pairwise distinct. -/
def seenInv (st : List Nat × List NewsRec) : Prop :=
  (∀ r ∈ st.2, r.contact.id ∈ st.1) ∧
  st.2.Pairwise (fun a b => a.contact.id ≠ b.contact.id)

theorem processContact_seenInv (combined : Name) (srcs : List (Loc × Name))
    (full : Name) (st : List Nat × List NewsRec) (c : Contact) (h : seenInv st) :
    seenInv (processContact combined srcs full st c) := by
  rcases processContact_eq combined srcs full st c with he | ⟨hid, _, he⟩
  · rw [he]; exact h
  · rw [he]
    constructor
    · intro r hr
      rcases List.mem_append.1 hr with hr | hr
      · exact List.mem_cons_of_mem _ (h.1 r hr)
      · rw [List.mem_singleton] at hr
        subst hr
        exact List.mem_cons_self _ _
    · rw [List.pairwise_append]
      refine ⟨h.2, List.pairwise_singleton _ _, ?_⟩
      intro a ha b hb
      rw [List.mem_singleton] at hb
      subst hb
      intro hee
      exact hid (hee ▸ h.1 a ha)

theorem checkArticle_pairwise (m : NameMap) (t e cn f : Name) :
    (checkArticleForMatches m t e cn f).Pairwise
      (fun a b => a.contact.id ≠ b.contact.id) := by
  unfold checkArticleForMatches
  dsimp only
  have h2 := foldl_preserve seenInv
    (fun st w => (mapGetD m w).foldl
      (processContact (combinedLowerOf (sourcesOf t e cn f)) (sourcesOf t e cn f) f) st)
    (candidateLastNamesOf m (combinedLowerOf (sourcesOf t e cn f))) ([], [])
    (fun st w _ hst => foldl_preserve seenInv _ (mapGetD m w) st
      (fun st' c _ hst' => processContact_seenInv _ _ _ st' c hst') hst)
    ⟨by simp, List.Pairwise.nil⟩
  exact h2.2

/-! ## Upsert persistence: one row per (article url, contact id) -/

theorem storeFind?_cons (a : ArticleKey) (b : NewsRec) (l : Store) (k : ArticleKey) :
    storeFind? ((a, b) :: l) k = if a = k then some b else storeFind? l k := by
  unfold storeFind?
  simp only [List.find?]
  by_cases h : a = k
  · simp [h]
  · simp [h]

theorem storeFind?_upsert_self (st : Store) (k : ArticleKey) (r : NewsRec) :
    storeFind? (upsertMatch st k r) k = some r := by
  induction st with
  | nil => rw [show upsertMatch [] k r = [(k, r)] from rfl, storeFind?_cons]; simp
  | cons p rest ih =>
    obtain ⟨k', r'⟩ := p
    unfold upsertMatch
    by_cases h : k' = k
    · rw [if_pos h, storeFind?_cons, if_pos rfl]
    · rw [if_neg h, storeFind?_cons, if_neg h]
      exact ih

theorem storeFind?_upsert_other (st : Store) (k : ArticleKey) (r : NewsRec)
    (k' : ArticleKey) (h : k' ≠ k) :
    storeFind? (upsertMatch st k r) k' = storeFind? st k' := by
  have h' : k ≠ k' := Ne.symm h
  induction st with
  | nil => rw [show upsertMatch [] k r = [(k, r)] from rfl, storeFind?_cons, if_neg h']
  | cons p rest ih =>
    obtain ⟨k'', r''⟩ := p
    unfold upsertMatch
    by_cases h2 : k'' = k
    · rw [if_pos h2, storeFind?_cons, if_neg h', storeFind?_cons, if_neg (h2 ▸ h')]
    · rw [if_neg h2, storeFind?_cons, storeFind?_cons]
      by_cases h3 : k'' = k'
      · rw [if_pos h3, if_pos h3]
      · rw [if_neg h3, if_neg h3]
        exact ih

theorem upsertMatch_noop (st : Store) (k : ArticleKey) (r : NewsRec)
    (h : storeFind? st k = some r) : upsertMatch st k r = st := by
  induction st with
  | nil => simp [storeFind?, List.find?] at h
  | cons p rest ih =>
    obtain ⟨k'', r''⟩ := p
    rw [storeFind?_cons] at h
    unfold upsertMatch
    by_cases h2 : k'' = k
    · rw [if_pos h2] at h ⊢
      rw [Option.some_inj] at h
      rw [h2, h]
    · rw [if_neg h2] at h ⊢
      rw [ih h]

theorem saveAll_find_other (url : Name) :
    ∀ (rs : List NewsRec) (st : Store) (k : ArticleKey),
      (∀ r' ∈ rs, ((url, r'.contact.id) : ArticleKey) ≠ k) →
      storeFind? (saveAll st url rs) k = storeFind? st k := by
  intro rs
  induction rs with
  | nil => intro st k _; rfl
  | cons r rs' ih =>
    intro st k hk
    show storeFind? (saveAll (upsertMatch st (url, r.contact.id) r) url rs') k = _
    rw [ih _ k (fun r' hr' => hk r' (List.mem_cons_of_mem _ hr')),
      storeFind?_upsert_other _ _ _ k (Ne.symm (hk r (List.mem_cons_self _ _)))]

theorem saveAll_idem (url : Name) :
    ∀ (rs : List NewsRec) (st : Store),
      rs.Pairwise (fun a b => a.contact.id ≠ b.contact.id) →
      saveAll (saveAll st url rs) url rs = saveAll st url rs := by
  intro rs
  induction rs with
  | nil => intro st _; rfl
  | cons r rs' ih =>
    intro st hp
    rw [List.pairwise_cons] at hp
    have hkeys : ∀ r' ∈ rs',
        ((url, r'.contact.id) : ArticleKey) ≠ (url, r.contact.id) := by
      intro r' hr' he
      exact hp.1 r' hr' (congrArg Prod.snd he).symm
    have hfind : storeFind?
        (saveAll (upsertMatch st (url, r.contact.id) r) url rs')
        (url, r.contact.id) = some r := by
      rw [saveAll_find_other url rs' _ _ hkeys, storeFind?_upsert_self]
    show saveAll
        (saveAll (upsertMatch st (url, r.contact.id) r) url rs') url (r :: rs') = _
    have hstep : saveAll
        (saveAll (upsertMatch st (url, r.contact.id) r) url rs') url (r :: rs') =
        saveAll (upsertMatch
          (saveAll (upsertMatch st (url, r.contact.id) r) url rs')
          (url, r.contact.id) r) url rs' := rfl
    rw [hstep, upsertMatch_noop _ _ _ hfind]
    exact ih _ hp.2

/-! ## Location choice helpers -/

theorem chooseLocation_eq_of_find_some {srcs : List (Loc × Name)} {fn : Name}
    {s : Loc × Name} (h : srcs.find? (fun s => isSub fn (lowerName s.2)) = some s) :
    chooseLocation srcs fn = s.1 := by
  unfold chooseLocation
  rw [h]

theorem chooseLocation_eq_of_find_none {srcs : List (Loc × Name)} {fn : Name}
    (h : srcs.find? (fun s => isSub fn (lowerName s.2)) = none) :
    chooseLocation srcs fn = Loc.full := by
  unfold chooseLocation
  rw [h]

theorem bestSourceText_full (t e cn f : Name) :
    bestSourceText (sourcesOf t e cn f) f Loc.full = f := by
  have hf : (sourcesOf t e cn f).find? (fun s => decide (s.1 = Loc.full)) =
      some (Loc.full, f) := rfl
  unfold bestSourceText
  rw [hf]
  split
  · rename_i s hs
    rw [Option.some_inj] at hs
    rw [← hs]
    dsimp only
    split <;> rfl
  · rename_i hs
    simp at hs

theorem bestSourceText_of_find (t e cn f : Name) (fn : Name) (s : Loc × Name)
    (h : (sourcesOf t e cn f).find? (fun s => isSub fn (lowerName s.2)) = some s)
    (hne : s.2 ≠ []) :
    bestSourceText (sourcesOf t e cn f) f s.1 = s.2 := by
  have hmem := List.mem_of_find?_eq_some h
  simp only [sourcesOf, List.mem_cons, List.not_mem_nil, or_false] at hmem
  rcases hmem with he | he | he | he <;> subst he <;>
    simp_all [bestSourceText, sourcesOf, List.find?]

/-- C7: the free-text news scanner reports a contact for a document only if
the full lowercased document text (the space-joined lowercased sources)
contains the contact's full name ("first last", lowercased) as a substring,
and every reported contact was found by looking up one of the document's
unique words (all of length at least 2) in the last-name index. -/
theorem C7_free_text_candidate_filter :
    ∀ (m : NameMap) (t e cn f : Name) (r : NewsRec),
      r ∈ checkArticleForMatches m t e cn f →
        lowerName (fullNameOf r.contact) <:+: combinedLowerOf (sourcesOf t e cn f) ∧
        ∃ w, w ∈ uniqueWordsOf (combinedLowerOf (sourcesOf t e cn f)) ∧
          2 ≤ w.length ∧ (mapFind? m w).isSome ∧ r.contact ∈ mapGetD m w := by
  intro m t e cn f r h
  obtain ⟨w, hw, hmem, hprop⟩ := checkArticle_mem m t e cn f r h
  refine ⟨(isSub_correct _ _).1 hprop.1, w, ?_, ?_, ?_, hmem⟩
  · unfold candidateLastNamesOf at hw
    exact (List.mem_filter.1 hw).1
  · exact uniqueWordsOf_length (by
      unfold candidateLastNamesOf at hw
      exact (List.mem_filter.1 hw).1)
  · unfold candidateLastNamesOf at hw
    exact (List.mem_filter.1 hw).2

/-- C7 witness: the scanner reports Anna Smith for an article whose title
contains "Anna Smith", and "smith" is the index word that produced her. -/
theorem C7_free_text_candidate_filter_witness :
    lowerName (fullNameOf ⟨0, nm "Anna", nm "Smith"⟩) <:+:
      combinedLowerOf (sourcesOf (nm "Anna Smith wins") (nm "") (nm "") (nm "")) :=
  (C7_free_text_candidate_filter
    (createLastNameMap [⟨0, nm "Anna", nm "Smith"⟩])
    (nm "Anna Smith wins") (nm "") (nm "") (nm "")
    ⟨⟨0, nm "Anna", nm "Smith"⟩, Loc.title,
      findExcerpt (nm "Anna Smith wins") (fullNameOf ⟨0, nm "Anna", nm "Smith"⟩) 300⟩
    (by decide)).1

/-- C2 counterexample: with title "anna" and excerpt "smith" the full name
"anna smith" appears only across the space-joined source boundary; a match
is still persisted, with matchLocation `full`, although no single source's
lowercased text contains the name — so the stored location is not "the
first source whose lowercased text contains the contact's full name". -/
theorem C2_counterexample :
    checkArticleForMatches (createLastNameMap [⟨0, nm "Anna", nm "Smith"⟩])
      (nm "anna") (nm "smith") (nm "") (nm "") =
      [⟨⟨0, nm "Anna", nm "Smith"⟩, Loc.full, []⟩] ∧
    (∀ s ∈ sourcesOf (nm "anna") (nm "smith") (nm "") (nm ""),
      isSub (lowerName (fullNameOf ⟨0, nm "Anna", nm "Smith"⟩)) (lowerName s.2)
        = false) := by
  constructor
  · decide
  · decide

/-- C2 (amended): one article scan stores at most one match per contact id
(hence per (article url, contact id) pair); re-persisting the same scan's
records is a no-op on the store, whose upsert is keyed on exactly that
pair; and each stored record's matchLocation is the first source in
priority order title > excerpt > content > full whose lowercased text
contains the contact's full name, with the excerpt drawn from that source —
provided such a source exists; when the name occurs only across the
space-joined concatenation of the sources, the location defaults to `full`
with the excerpt drawn from the full text. -/
theorem C2_dedup_idempotent_and_location :
    (∀ (m : NameMap) (t e cn f : Name),
      (checkArticleForMatches m t e cn f).Pairwise
        (fun a b => a.contact.id ≠ b.contact.id)) ∧
    (∀ (m : NameMap) (t e cn f url : Name) (st : Store),
      saveAll (saveAll st url (checkArticleForMatches m t e cn f)) url
          (checkArticleForMatches m t e cn f) =
        saveAll st url (checkArticleForMatches m t e cn f)) ∧
    (∀ (m : NameMap) (t e cn f : Name) (r : NewsRec),
      r ∈ checkArticleForMatches m t e cn f →
        (∃ s, (sourcesOf t e cn f).find?
            (fun s => isSub (lowerName (fullNameOf r.contact)) (lowerName s.2)) =
              some s ∧
          r.matchLocation = s.1 ∧
          r.excerpt = findExcerpt s.2 (fullNameOf r.contact) 300) ∨
        ((sourcesOf t e cn f).find?
            (fun s => isSub (lowerName (fullNameOf r.contact)) (lowerName s.2)) =
              none ∧
          r.matchLocation = Loc.full ∧
          r.excerpt = findExcerpt f (fullNameOf r.contact) 300)) := by
  refine ⟨checkArticle_pairwise, ?_, ?_⟩
  · intro m t e cn f url st
    exact saveAll_idem url _ st (checkArticle_pairwise m t e cn f)
  · intro m t e cn f r h
    obtain ⟨w, hw, hmem, hprop⟩ := checkArticle_mem m t e cn f r h
    obtain ⟨hsub, hloc, hexc⟩ := hprop
    rcases hf : (sourcesOf t e cn f).find?
        (fun s => isSub (lowerName (fullNameOf r.contact)) (lowerName s.2)) with
      _ | s
    · right
      have hl : r.matchLocation = Loc.full := by
        rw [hloc, chooseLocation_eq_of_find_none hf]
      refine ⟨hf, hl, ?_⟩
      rw [hexc, hl, bestSourceText_full]
    · left
      have hp := List.find?_some hf
      have hnn : s.2 ≠ [] := by
        intro hnil
        have := isSub_ne_nil hp (lowerName_ne_nil (fullNameOf_ne_nil r.contact))
        exact this (by rw [hnil]; rfl)
      have hl : r.matchLocation = s.1 := by
        rw [hloc, chooseLocation_eq_of_find_some hf]
      refine ⟨s, hf, hl, ?_⟩
      rw [hexc, hl, bestSourceText_of_find t e cn f _ s hf hnn]

/-- C2 witness: for an article whose title contains "Anna Smith", the single
stored record carries location `title` with the excerpt drawn from the
title. -/
theorem C2_dedup_idempotent_and_location_witness :
    (∃ s, (sourcesOf (nm "Anna Smith wins") (nm "") (nm "") (nm "")).find?
        (fun s => isSub (lowerName (fullNameOf ⟨0, nm "Anna", nm "Smith"⟩))
          (lowerName s.2)) = some s ∧
      (⟨⟨0, nm "Anna", nm "Smith"⟩, Loc.title,
        findExcerpt (nm "Anna Smith wins")
          (fullNameOf ⟨0, nm "Anna", nm "Smith"⟩) 300⟩ : NewsRec).matchLocation =
        s.1 ∧
      (⟨⟨0, nm "Anna", nm "Smith"⟩, Loc.title,
        findExcerpt (nm "Anna Smith wins")
          (fullNameOf ⟨0, nm "Anna", nm "Smith"⟩) 300⟩ : NewsRec).excerpt =
        findExcerpt s.2 (fullNameOf ⟨0, nm "Anna", nm "Smith"⟩) 300) ∨
    ((sourcesOf (nm "Anna Smith wins") (nm "") (nm "") (nm "")).find?
        (fun s => isSub (lowerName (fullNameOf ⟨0, nm "Anna", nm "Smith"⟩))
          (lowerName s.2)) = none ∧
      (⟨⟨0, nm "Anna", nm "Smith"⟩, Loc.title,
        findExcerpt (nm "Anna Smith wins")
          (fullNameOf ⟨0, nm "Anna", nm "Smith"⟩) 300⟩ : NewsRec).matchLocation =
        Loc.full ∧
      (⟨⟨0, nm "Anna", nm "Smith"⟩, Loc.title,
        findExcerpt (nm "Anna Smith wins")
          (fullNameOf ⟨0, nm "Anna", nm "Smith"⟩) 300⟩ : NewsRec).excerpt =
        findExcerpt (nm "") (fullNameOf ⟨0, nm "Anna", nm "Smith"⟩) 300) :=
  C2_dedup_idempotent_and_location.2.2
    (createLastNameMap [⟨0, nm "Anna", nm "Smith"⟩])
    (nm "Anna Smith wins") (nm "") (nm "") (nm "")
    ⟨⟨0, nm "Anna", nm "Smith"⟩, Loc.title,
      findExcerpt (nm "Anna Smith wins") (fullNameOf ⟨0, nm "Anna", nm "Smith"⟩) 300⟩
    (by decide)

end KeepInTouch
